import Mathlib

/-! Shallow embedding of the specialty-to-NUCC mapping engine of this
    repository (src/mapping.py and src/preprocessing.py).  Python strings
    are modelled as lists of characters restricted to the ASCII fragment
    of the regex classes involved, and Python floats as rationals. -/

namespace Py

/-- Strings are modelled as lists of characters. -/
abbrev Str := List Char

/-- Coerce a Lean string literal to the character-list model. -/
def str (s : String) : Str := s.toList

/-- Whitespace characters of Python's regex whitespace class and of
    str.split and str.strip (ASCII fragment). -/
def isWs (c : Char) : Bool :=
  c = ' ' || c = '\t' || c = '\n' || c = '\x0d' || c = '\x0b' || c = '\x0c'

/-- Lowercase ASCII letter. -/
def isLowerAlpha (c : Char) : Bool := decide ('a' ≤ c) && decide (c ≤ 'z')

/-- Uppercase ASCII letter. -/
def isUpperAlpha (c : Char) : Bool := decide ('A' ≤ c) && decide (c ≤ 'Z')

/-- ASCII digit. -/
def isDigitCh (c : Char) : Bool := decide ('0' ≤ c) && decide (c ≤ '9')

/-- Word characters of Python's regex word class (ASCII fragment), the
    alphabet of word-boundary semantics. -/
def isWordChar (c : Char) : Bool :=
  isLowerAlpha c || isUpperAlpha c || isDigitCh c || c = '_'


/-- Python str.lower on the ASCII fragment.  Non-ASCII uppercase letters
    are left alone; every non-ASCII letter is replaced by a space in the
    character filter of normalize either way, so the difference from
    Python's Unicode lower is invisible downstream. -/
def lc (c : Char) : Char := if isUpperAlpha c then Char.ofNat (c.toNat + 32) else c

/-- Python str.split with no argument: split on whitespace runs, dropping
    empty fragments; the accumulator holds the current token reversed. -/
def splitWsGo : Str → Str → List Str
  | [], acc => if acc = [] then [] else [acc.reverse]
  | c :: cs, acc =>
    if isWs c then (if acc = [] then splitWsGo cs [] else acc.reverse :: splitWsGo cs [])
    else splitWsGo cs (c :: acc)

/-- Python str.split with no argument. -/
def splitWs (s : Str) : List Str := splitWsGo s []

/-- Python sep.flatten(parts). -/
def joinSep (sep : Str) : List Str → Str
  | [] => []
  | [x] => x
  | x :: y :: ys => x ++ sep ++ joinSep sep (y :: ys)

/-- Remove trailing whitespace (right half of Python str.strip). -/
def rstripWs : Str → Str
  | [] => []
  | c :: cs =>
    let r := rstripWs cs
    if r = [] && isWs c then [] else c :: r

/-- Python str.strip with no argument. -/
def pyStrip (s : Str) : Str := rstripWs (s.dropWhile (fun c => isWs c))

/-- Replace every maximal whitespace run by one space, modelling re.sub of
    one-or-more whitespace with a single space; the boolean records
    whether the previous character was whitespace. -/
def collapseGo : Bool → Str → Str
  | _, [] => []
  | inWs, c :: cs =>
    if isWs c then (if inWs then collapseGo true cs else ' ' :: collapseGo true cs)
    else c :: collapseGo false cs

/-- Collapse whitespace runs to single spaces. -/
def collapseWs (s : Str) : Str := collapseGo false s

/-- Maximal runs of word characters in a string; the accumulator holds the
    current partial run reversed. -/
def runsGo : Str → Str → List Str
  | [], acc => if acc = [] then [] else [acc.reverse]
  | c :: cs, acc =>
    if isWordChar c then runsGo cs (c :: acc)
    else (if acc = [] then runsGo cs [] else acc.reverse :: runsGo cs [])

/-- Maximal runs of word characters in a string. -/
def runs (s : Str) : List Str := runsGo s []

/-- Flush a reversed partial word for rmWordsGo: a word in the removal set
    becomes a single space, any other word is kept. -/
def flushW (W : List Str) (w : Str) : Str :=
  if w = [] then [] else (if w.reverse ∈ W then [' '] else w.reverse)

/-- Replace every maximal word-character run equal to one of the listed
    words by a single space.  This models re.sub of a word-boundary
    anchored alternation of plain words with a space: such a pattern can
    only match a whole maximal run, and at most one alternative equals a
    given run. -/
def rmWordsGo (W : List Str) : Str → Str → Str
  | [], w => flushW W w
  | c :: cs, w =>
    if isWordChar c then rmWordsGo W cs (c :: w)
    else flushW W w ++ c :: rmWordsGo W cs []

/-- Word-boundary anchored removal of a list of words (replaced by a
    space). -/
def rmWords (W : List Str) (s : Str) : Str := rmWordsGo W s []

/-- Organizational nouns removed by mapping.py normalize. -/
def deptWords : List Str :=
  [str "dept", str "department", str "clinic", str "division", str "program",
   str "service", str "center", str "centre", str "unit", str "office"]

/-- Stop words removed by mapping.py normalize. -/
def stopWords : List Str := [str "of", str "for", str "and", str "the"]

/-- Punctuation kept by the character filter of mapping.py normalize. -/
def keepSpecials : List Char := ['/', '&', '+', ',', '-']

/-- Characters kept by the character-class substitution in normalize:
    lowercase letters, digits, whitespace and the kept punctuation; every
    other character becomes a space. -/
def keepChar (c : Char) : Bool := isLowerAlpha c || isDigitCh c || isWs c || c ∈ keepSpecials

/-- The character-class substitution of normalize. -/
def filtChar (c : Char) : Char := if keepChar c then c else ' '

/-- mapping.py normalize: lowercase, replace disallowed characters by
    spaces, remove organizational words, remove stop words, collapse
    whitespace and strip. -/
def normalize (t : Str) : Str :=
  pyStrip (collapseWs (rmWords stopWords (rmWords deptWords ((t.map lc).map filtChar))))

/-- Connector characters of the splitter character class. -/
def connChars : List Char := ['|', ',', '/', ';', '&', '+']

/-- Literal prefix test (Python startswith). -/
def leadsWith : Str → Str → Bool
  | [], _ => true
  | _ :: _, [] => false
  | a :: as, b :: bs => a = b && leadsWith as bs

/-- Match of the splitter regex at the current position: first optional
    whitespace, a connector character and optional whitespace (the greedy
    leading whitespace loop can only succeed on the maximal whitespace
    run, since no whitespace character is a connector); otherwise the
    literal word and with single surrounding spaces.  Returns the rest of
    the string after the match. -/
def splitMatch (s : Str) : Option Str :=
  match s.dropWhile (fun c => isWs c) with
  | c :: cs =>
    if c ∈ connChars then some (cs.dropWhile (fun c => isWs c))
    else if leadsWith (str " and ") s then some (s.drop 5) else none
  | [] => if leadsWith (str " and ") s then some (s.drop 5) else none

/-- re.split scanning loop for the splitter pattern: leftmost matches,
    parts accumulated in reverse; the fuel is in practice the length of
    the string (every match consumes at least one character). -/
def reSplitGo : Nat → Str → Str → List Str
  | _, [], acc => [acc.reverse]
  | 0, s, acc => [acc.reverse ++ s]
  | fuel + 1, c :: cs, acc =>
    match splitMatch (c :: cs) with
    | some rest => acc.reverse :: reSplitGo fuel rest []
    | none => reSplitGo fuel cs (c :: acc)

/-- mapping.py split_specialties: re.split on the connector pattern, then
    strip each part and drop the empty ones. -/
def split_specialties (t : Str) : List Str :=
  ((reSplitGo t.length t []).map pyStrip).filter (fun p => p ≠ [])

/-- mapping.py token_overlap: Jaccard similarity of the whitespace-token
    sets of the two phrases, zero when either set is empty. -/
def token_overlap (a b : Str) : ℚ :=
  let ta := (splitWs a).toFinset
  let tb := (splitWs b).toFinset
  if ta = ∅ ∨ tb = ∅ then 0
  else ((ta ∩ tb).card : ℚ) / ((ta ∪ tb).card : ℚ)

/-- Longest-common-subsequence length with fuel (in practice the sum of
    the two lengths). -/
def lcsGo : Nat → Str → Str → Nat
  | 0, _, _ => 0
  | _, [], _ => 0
  | _, _, [] => 0
  | fuel + 1, a :: as, b :: bs =>
    if a = b then lcsGo fuel as bs + 1
    else max (lcsGo fuel (a :: as) bs) (lcsGo fuel as (b :: bs))

/-- Longest-common-subsequence length. -/
def lcsN (a b : Str) : Nat := lcsGo (a.length + b.length) a b

/-- rapidfuzz fuzz.ratio as a rational in 0..100: normalized indel
    similarity, equal to twice the longest common subsequence over the
    total length; two empty strings score 100. -/
def ratioQ (a b : Str) : ℚ :=
  if a.length + b.length = 0 then 100
  else (200 * (lcsN a b : ℚ)) / (((a.length + b.length : Nat)) : ℚ)

/-- Lexicographic string order by character code (Python's default string
    comparison). -/
def lexLe : Str → Str → Bool
  | [], _ => true
  | _ :: _, [] => false
  | a :: as, b :: bs => if a = b then lexLe as bs else decide (a < b)

/-- Stable insertion for sSort: x is placed before the first element y
    with f x y true. -/
def sInsert (f : α → α → Bool) (x : α) : List α → List α
  | [] => [x]
  | y :: ys => if f x y then x :: y :: ys else y :: sInsert f x ys

/-- Stable sort modelling Python's sorted: f x y true means x may stay in
    front of y, so ties keep their original order when f holds on ties. -/
def sSort (f : α → α → Bool) (l : List α) : List α := l.foldr (sInsert f) []

/-- rapidfuzz fuzz.token_sort_ratio: sort the whitespace tokens, join with
    single spaces, then take the ratio. -/
def sortTokens (s : Str) : Str := joinSep [' '] (sSort lexLe (splitWs s))

/-- token_sort_ratio of two strings, in 0..100. -/
def tsr (a b : Str) : ℚ := ratioQ (sortTokens a) (sortTokens b)

/-- rapidfuzz process.extract with a scorer and a limit: every choice is
    scored, sorted by score descending with ties in first-seen order, and
    the list is truncated to the limit. -/
def extractTop (q : Str) (choices : List Str) (limit : Nat) : List (Str × ℚ) :=
  (sSort (fun a b => decide (b.2 ≤ a.2)) (choices.map (fun c => (c, tsr q c)))).take limit

/-- Round to the nearest integer (half up), used for formatting. -/
def roundQ (x : ℚ) : Int := Rat.floor (x + 1/2)

/-- Approximate model of Python's two-decimal float formatting used inside
    reason strings; its exact rounding behaviour is immaterial, as no
    claim depends on the formatted digits. -/
def fmtQ (x : ℚ) : Str :=
  let n := (roundQ (x * 100)).toNat
  Nat.toDigits 10 (n / 100) ++
    '.' :: (if n % 100 < 10 then '0' :: Nat.toDigits 10 (n % 100) else Nat.toDigits 10 (n % 100))

/-- Match candidate of one strategy: code, score, reason. -/
abbrev Cand := Str × ℚ × Str

/-- One taxonomy entry as held by the mapper: its code and its precomputed
    canonical phrase. -/
structure Entry where
  code : Str
  canonical : Str
deriving DecidableEq

/-- NuccSpecialtyMapper state: taxonomy entries with canonical phrases,
    the lowercased synonym dictionary, and the confidence threshold (0.65
    by default in the source). -/
structure Mapper where
  entries : List Entry
  synonyms : List (Str × Str)
  threshold : ℚ

/-- The canonical-phrase column of the mapper. -/
def canonicals (m : Mapper) : List Str := m.entries.map Entry.canonical

/-- Python dict.get with a default: the first binding wins. -/
def lookupD (d : List (Str × Str)) (w : Str) : Str :=
  match d.find? (fun p => decide (p.1 = w)) with
  | some p => p.2
  | none => w

/-- NuccSpecialtyMapper.expand_synonyms: replace each whitespace token by
    its synonym image and rejoin with single spaces. -/
def expand_synonyms (m : Mapper) (t : Str) : Str :=
  joinSep [' '] ((splitWs t).map (lookupD m.synonyms))

/-- NuccSpecialtyMapper.exact_match: every entry whose canonical phrase
    equals the query, with score 1 and reason exact. -/
def exact_match (m : Mapper) (q : Str) : List Cand :=
  (m.entries.filter (fun e => decide (e.canonical = q))).map
    (fun e => (e.code, (1 : ℚ), str "exact"))

/-- NuccSpecialtyMapper.token_match: every entry whose canonical phrase
    has Jaccard token overlap of at least 0.7 with the query. -/
def token_match (m : Mapper) (q : Str) : List Cand :=
  m.entries.filterMap (fun e =>
    let score := token_overlap q e.canonical
    if 7/10 ≤ score then some (e.code, score, str "token_overlap:" ++ fmtQ score) else none)

/-- NuccSpecialtyMapper.fuzzy_match, rapidfuzz branch: take the ten best
    canonical phrases by token_sort_ratio, keep those scoring at least
    0.75 (after scaling to 0..1) that also have nonzero token overlap,
    and resolve each phrase to the first entry carrying it. -/
def fuzzy_match (m : Mapper) (q : Str) : List Cand :=
  (extractTop q (canonicals m) 10).foldr (fun ps acc =>
    let sn := ps.2 / 100
    if 3/4 ≤ sn ∧ 0 < token_overlap q ps.1 then
      match m.entries.find? (fun e => decide (e.canonical = ps.1)) with
      | some e => (e.code, sn, str "fuzzy:" ++ fmtQ sn) :: acc
      | none => acc
    else acc) []

/-- The candidate pool of map_one: the three strategies run
    unconditionally and their candidates are concatenated. -/
def pooled (m : Mapper) (q : Str) : List Cand :=
  exact_match m q ++ token_match m q ++ fuzzy_match m q

/-- One step of the best-score-per-code dictionary of map_one: a new code
    is appended (Python dict insertion order), an existing code is
    overwritten only by a strictly larger score. -/
def upsert (best : List Cand) (c : Cand) : List Cand :=
  if best.any (fun b => decide (b.1 = c.1)) then
    best.map (fun b => if b.1 = c.1 ∧ b.2.1 < c.2.1 then (b.1, c.2) else b)
  else best ++ [c]

/-- NuccSpecialtyMapper.map_one: normalize the synonym-expanded text, pool
    the three strategies, keep the best score per code, sort by score
    descending (stable), and apply the confidence threshold. -/
def map_one (m : Mapper) (t : Str) : List Str × ℚ × Str :=
  let q := normalize (expand_synonyms m t)
  if q = [] then ([], 0, str "empty")
  else
    let cands := pooled m q
    if cands = [] then ([], 0, str "no match")
    else
      let merged := sSort (fun a b => decide (b.2.1 ≤ a.2.1)) (cands.foldl upsert [])
      let top := merged.headD ([], 0, [])
      if top.2.1 < m.threshold then ([], top.2.1, str "junk-low-confidence")
      else ([top.1], top.2.1, top.2.2)

/-- collections.Counter increment, preserving insertion order. -/
def bump (cnt : List (Str × Nat)) (c : Str) : List (Str × Nat) :=
  if cnt.any (fun p => decide (p.1 = c)) then
    cnt.map (fun p => if p.1 = c then (p.1, p.2 + 1) else p)
  else cnt ++ [(c, 1)]

/-- The bracketed per-part fragment of the map_text explanation string. -/
def partReason (p : Str) (codes : List Str) (conf : ℚ) : Str :=
  let cj := joinSep [','] codes
  '[' :: p ++ ']' :: '→' :: (if cj = [] then str "none" else cj) ++ '(' :: fmtQ conf ++ [')']

/-- Loop body of map_text: add the part's codes to the counter and append
    its confidence and reason fragment. -/
def mapTextStep (m : Mapper) (st : List (Str × Nat) × List ℚ × List Str) (p : Str) :
    List (Str × Nat) × List ℚ × List Str :=
  let r := map_one m p
  (r.1.foldl bump st.1, st.2.1 ++ [r.2.1], st.2.2 ++ [partReason p r.1 r.2.1])

/-- NuccSpecialtyMapper.map_text: split the normalized text, map each
    part, count returned codes (a part contributes at most one), and
    either report no codes or the three most frequent codes with the
    arithmetic mean of all per-part scores. -/
def map_text (m : Mapper) (t : Str) : List Str × ℚ × Str :=
  let parts := split_specialties (normalize t)
  let st := parts.foldl (mapTextStep m)
    (([] : List (Str × Nat)), ([] : List ℚ), ([] : List Str))
  if st.1 = [] then ([], 0, joinSep (str "; ") st.2.2)
  else
    (((sSort (fun a b => decide (b.2 ≤ a.2)) st.1).take 3).map Prod.fst,
     (st.2.1.foldl (· + ·) 0) / (st.2.1.length : ℚ),
     joinSep (str "; ") st.2.2)

/-- Raw taxonomy row as read from the NUCC table. -/
structure RawRow where
  code : Str
  classification : Str
  specialization : Str
  display : Option Str

/-- Canonical phrase computed in NuccSpecialtyMapper.__init__: the display
    name when present and nonempty, else classification and specialization
    joined by a space; stripped, lowercased, then normalized. -/
def canonicalOf (r : RawRow) : Str :=
  let raw := match r.display with
    | some d => if d = [] then r.classification ++ ' ' :: r.specialization else d
    | none => r.classification ++ ' ' :: r.specialization
  normalize ((pyStrip raw).map lc)

/-- NuccSpecialtyMapper.__init__ from raw rows: canonical phrases are
    precomputed and synonym keys and values lowercased. -/
def mkMapper (rows : List RawRow) (syns : List (Str × Str)) (thr : ℚ) : Mapper :=
  ⟨rows.map (fun r => ⟨r.code, canonicalOf r⟩),
   syns.map (fun p => (p.1.map lc, p.2.map lc)),
   thr⟩

/-- The connector strings of the splitter pattern: the six connector
    characters and the literal word and with single surrounding spaces. -/
def connectors : List Str :=
  [str "|", str ",", str ";", str "&", str "+", str "/", str " and "]

/-- Synonym rule row from the synonyms table: type tag, pattern,
    replacement. -/
structure SynRule where
  type : Str
  pattern : Str
  replacement : Str

/-- Rule kinds substituted at word level in apply_synonym_mapping. -/
def wordKinds : List Str :=
  [str "abbreviation", str "misspelling", str "short_form",
   str "professional_title", str "specialty_variation"]

/-- Rule kinds substituted as raw regex patterns in
    apply_synonym_mapping. -/
def phraseKinds : List Str := [str "phrase", str "variation"]

/-- Rule kinds meant for removal; the source substitutes them exactly like
    the word-level kinds. -/
def termKinds : List Str :=
  [str "department", str "professional_prefix", str "institutional"]

/-- Word-character status of an optional character; a missing character
    counts as non-word, as at the ends of the text. -/
def wOpt : Option Char → Bool
  | none => false
  | some c => isWordChar c

/-- Match of a word-boundary-anchored escaped pattern at the current
    position: the pattern is a literal prefix and both of its ends sit on
    word boundaries (word-character status changes across each end). -/
def bMatch (p : Str) (prev : Option Char) (s : Str) : Bool :=
  decide (p ≠ []) && leadsWith p s &&
    (wOpt prev != wOpt p.head?) && (wOpt (s.drop p.length).head? != wOpt p.getLast?)

/-- re.sub of an escaped pattern wrapped in word boundaries with a literal
    replacement: leftmost non-overlapping matches, scanning with the
    preceding character for the boundary tests; the fuel is in practice
    the length of the text. -/
def subWordGo : Nat → Str → Str → Option Char → Str → Str
  | _, _, _, _, [] => []
  | 0, _, _, _, s => s
  | fuel + 1, p, r, prev, c :: cs =>
    if bMatch p prev (c :: cs) then
      r ++ subWordGo fuel p r p.getLast? ((c :: cs).drop p.length)
    else c :: subWordGo fuel p r (some c) cs

/-- Word-boundary-anchored literal substitution (the word-level rule
    branches of apply_synonym_mapping). -/
def subWord (p r t : Str) : Str := subWordGo t.length p r none t

/-- Python str.replace for a nonempty pattern: replace every leftmost
    non-overlapping occurrence; the fuel is in practice the length of the
    text. -/
def replaceSubstrGo : Nat → Str → Str → Str → Str
  | _, _, _, [] => []
  | 0, _, _, s => s
  | fuel + 1, p, r, c :: cs =>
    if decide (p ≠ []) && leadsWith p (c :: cs) then
      r ++ replaceSubstrGo fuel p r ((c :: cs).drop p.length)
    else c :: replaceSubstrGo fuel p r cs

/-- Python str.replace for a nonempty pattern. -/
def replaceSubstr (p r t : Str) : Str := replaceSubstrGo t.length p r t

/-- Case-insensitive literal prefix test. -/
def leadsWithCI : Str → Str → Bool
  | [], _ => true
  | _ :: _, [] => false
  | a :: as, b :: bs => lc a = lc b && leadsWithCI as bs

/-- Case-insensitive literal replacement (phrase rules are substituted
    with re.IGNORECASE); the fuel is in practice the length of the
    text. -/
def replaceCIGo : Nat → Str → Str → Str → Str
  | _, _, _, [] => []
  | 0, _, _, s => s
  | fuel + 1, p, r, c :: cs =>
    if decide (p ≠ []) && leadsWithCI p (c :: cs) then
      r ++ replaceCIGo fuel p r ((c :: cs).drop p.length)
    else c :: replaceCIGo fuel p r cs

/-- Outcome of compiling a phrase-kind pattern with Python's re module:
    either a substitution function (from replacement and text to the
    substituted text) or a compile failure. -/
structure ReEngine where
  compile : Str → Option (Str → Str → Str)

/-- Regex metacharacters of the modelled literal fragment. -/
def regexMeta : List Char :=
  ['\\', '.', '^', '$', '*', '+', '?', '\x7b', '\x7d', '[', ']', '|', '(', ')']

/-- Modelled fragment of Python's re used for phrase-kind rules: a
    pattern free of regex metacharacters compiles to case-insensitive
    literal substitution, and a pattern containing a metacharacter is
    treated as raising re.error.  Real re also accepts many metacharacter
    patterns; the claims settled against this engine only involve patterns
    on which the fragment and re agree (plain words, and a lone open
    parenthesis, which re rejects). -/
def litRe : ReEngine :=
  ⟨fun p => if p.any (fun c => c ∈ regexMeta) then none
    else some (fun r t => replaceCIGo t.length p r t)⟩

/-- One iteration of the rule loop of
    SpecialtyPreprocessor.apply_synonym_mapping: empty patterns are
    skipped; word-level kinds substitute with word-boundary anchors;
    phrase kinds apply the raw pattern through the regex engine and fall
    back to plain string replacement when the pattern fails to compile;
    removal kinds substitute like word-level kinds; unrecognized kinds
    leave the text unchanged. -/
def applyRule (e : ReEngine) (t : Str) (rule : SynRule) : Str :=
  if rule.pattern = [] then t
  else if rule.type ∈ wordKinds then subWord rule.pattern rule.replacement t
  else if rule.type ∈ phraseKinds then
    match e.compile rule.pattern with
    | some sub => sub rule.replacement t
    | none => replaceSubstr rule.pattern rule.replacement t
  else if rule.type ∈ termKinds then subWord rule.pattern rule.replacement t
  else t

/-- SpecialtyPreprocessor.apply_synonym_mapping: empty text maps to empty
    text; otherwise every rule is applied once, in order, and the result
    is whitespace-collapsed by a split and join and stripped. -/
def apply_synonym_mapping (e : ReEngine) (rules : List SynRule) (t : Str) : Str :=
  if t = [] then []
  else pyStrip (joinSep [' '] (splitWs (rules.foldl (applyRule e) t)))

/-- Substring test (Python's in operator on strings). -/
def isSubstr : Str → Str → Bool
  | p, [] => decide (p = [])
  | p, c :: cs => leadsWith p (c :: cs) || isSubstr p cs

/-- Junk patterns of SpecialtyPreprocessor.initialize_junk_patterns. -/
def junkPatterns : List Str :=
  [str "####", str "???", str "xyz", str "abc", str "tbd", str "temp",
   str "temporary", str "unknown", str "n/a", str "na", str "none",
   str "test", str "sample", str "random", str "error", str "routine",
   str "med office", str "physician", str "dr", str "doctor"]

/-- Short whitelist of valid clinical abbreviations in is_junk_entry. -/
def shortValidAbbr : List Str :=
  [str "ir", str "gi", str "ed", str "er", str "icu", str "picu", str "nicu"]

/-- SpecialtyPreprocessor.is_junk_entry: empty or at most two stripped
    characters; any junk pattern as a substring of the lowercased text;
    length at most three and not whitelisted; only digits and non-word
    characters. -/
def is_junk_entry (t : Str) : Bool :=
  if t = [] || decide ((pyStrip t).length ≤ 2) then true
  else if junkPatterns.any (fun p => isSubstr p (t.map lc)) then true
  else if decide (t.length ≤ 3) && decide (t ∉ shortValidAbbr) then true
  else if decide (t ≠ []) && t.all (fun c => isDigitCh c || !isWordChar c) then true
  else false

/-- First occurrences of a list in order, used to state the Counter
    aggregation of map_text. -/
def firstSeenGo (seen : List Str) : List Str → List Str
  | [] => []
  | x :: xs => if x ∈ seen then firstSeenGo seen xs else x :: firstSeenGo (x :: seen) xs

/-- First occurrences of a list in order. -/
def firstSeen (l : List Str) : List Str := firstSeenGo [] l

/-- Code-frequency table of a list of codes, keys in first-seen order
    (what a Counter fed with the list holds). -/
def counterSpec (l : List Str) : List (Str × Nat) :=
  (firstSeen l).map (fun c => (c, l.count c))

/-- The three most frequent codes of a list, ties broken by first-seen
    order (Counter.most_common of the list, truncated to three). -/
def mostCommon3 (l : List Str) : List Str :=
  (((counterSpec l).foldr (sInsert (fun a b => decide (b.2 ≤ a.2))) []).take 3).map Prod.fst


/-- Best pooled candidate score of a list of candidates (zero when the
    pool is empty; all scores are nonnegative). -/
def poolBest (cands : List Cand) : ℚ := (cands.map (fun c => c.2.1)).foldr max 0

/-- First characters of the configured connectors. -/
def connFirsts : List Char := ['|', ',', ';', '&', '+', '/', ' ']

/-- No two adjacent whitespace characters. -/
def noTwoWs : Str → Bool
  | c :: d :: rest => !(isWs c && isWs d) && noTwoWs (d :: rest)
  | _ => true

/-- Whether the first character is whitespace (false on empty). -/
def headIsWs (p : Str) : Bool :=
  match p.head? with
  | some h => isWs h
  | none => false

/-- Whether the last character is whitespace (false on empty). -/
def lastIsWs (p : Str) : Bool :=
  match p.getLast? with
  | some h => isWs h
  | none => false

/-- Plain phrase for the split-insensitivity statement: nonempty, free of
    connector characters, not containing the letters a n d consecutively,
    and without leading or trailing whitespace. -/
def plainPhrase (p : Str) : Prop :=
  p ≠ [] ∧ (∀ c ∈ p, c ∉ connChars) ∧ isSubstr (str "and") p = false ∧
    headIsWs p = false ∧ lastIsWs p = false

/-- Concrete mapper used by witnesses: one Cardiology taxonomy row, no
    synonyms, the default threshold. -/
def mX : Mapper := mkMapper [⟨str "X", str "Cardiology", str "", none⟩] [] (13/20)

/-- Concrete mapper used by witnesses: one four-token canonical phrase and
    a raised threshold, so a pooled candidate can fall below it. -/
def mLow : Mapper := mkMapper [⟨str "X", str "", str "", some (str "a b c d")⟩] [] (9/10)

/-- Concrete empty mapper used by witnesses. -/
def mEmpty : Mapper := mkMapper [] [] (13/20)

/-! Theorems.  First a toolkit of lemmas about the list machinery, then
    one theorem (with witness or counterexample) per claim. -/

theorem leadsWith_iff (p : Str) : ∀ s, leadsWith p s = true ↔ ∃ b, s = p ++ b := by
  induction p with
  | nil => intro s; simp [leadsWith]
  | cons a as ih =>
    intro s
    cases s with
    | nil => simp [leadsWith]
    | cons b bs =>
      simp only [leadsWith, Bool.and_eq_true, decide_eq_true_eq, ih, List.cons_append,
        List.cons.injEq]
      constructor
      · rintro ⟨rfl, u, rfl⟩; exact ⟨u, rfl, rfl⟩
      · rintro ⟨u, rfl, rfl⟩; exact ⟨rfl, u, rfl⟩

theorem sInsert_perm (f : α → α → Bool) (x : α) (l : List α) :
    List.Perm (sInsert f x l) (x :: l) := by
  induction l with
  | nil => simp [sInsert]
  | cons y ys ih =>
    by_cases h : f x y
    · simp [sInsert, h]
    · simp only [sInsert, h, Bool.false_eq_true, if_false]
      exact (ih.cons y).trans (List.Perm.swap x y ys)

theorem sSort_perm (f : α → α → Bool) (l : List α) : List.Perm (sSort f l) l := by
  induction l with
  | nil => simp [sSort]
  | cons x xs ih => exact (sInsert_perm f x (sSort f xs)).trans (ih.cons x)

theorem sSort_mem (f : α → α → Bool) (l : List α) (a : α) : a ∈ sSort f l ↔ a ∈ l :=
  (sSort_perm f l).mem_iff

theorem sInsert_front (f : α → α → Bool) (x : α) (l : List α)
    (h : ∀ y ∈ l, f x y = true) : sInsert f x l = x :: l := by
  cases l with
  | nil => rfl
  | cons y ys => simp [sInsert, h y (List.mem_cons_self y ys)]

theorem sSort_head_ge (k : α → ℚ) (l : List α) (d : α) (y : α) (hy : y ∈ l) :
    k y ≤ k ((sSort (fun a b => decide (k b ≤ k a)) l).headD d) := by
  induction l with
  | nil => cases hy
  | cons x xs ih =>
    show k y ≤ k ((sInsert _ x (sSort _ xs)).headD d)
    cases hs : sSort (fun a b => decide (k b ≤ k a)) xs with
    | nil =>
      have hxs : xs = [] := by
        have := sSort_perm (fun a b => decide (k b ≤ k a)) xs
        rw [hs] at this
        exact this.symm.eq_nil
      subst hxs
      rcases List.mem_singleton.mp hy with rfl
      simp [hs, sInsert]
    | cons h0 t0 =>
      by_cases hcmp : k h0 ≤ k x
      · have hins : sInsert (fun a b => decide (k b ≤ k a)) x (h0 :: t0) = x :: h0 :: t0 := by
          simp [sInsert, hcmp]
        rw [hins]
        rcases List.mem_cons.mp hy with rfl | hy2
        · simp
        · have hrec := ih hy2
          rw [hs] at hrec
          simpa using le_trans hrec hcmp
      · have hins : sInsert (fun a b => decide (k b ≤ k a)) x (h0 :: t0)
            = h0 :: sInsert (fun a b => decide (k b ≤ k a)) x t0 := by
          simp [sInsert, hcmp]
        rw [hins]
        rcases List.mem_cons.mp hy with rfl | hy2
        · simpa using le_of_lt (lt_of_not_le hcmp)
        · have hrec := ih hy2
          rw [hs] at hrec
          simpa using hrec

theorem headD_mem {l : List α} (d : α) (h : l ≠ []) : l.headD d ∈ l := by
  cases l with
  | nil => exact absurd rfl h
  | cons x xs => simp

/-- C9: the claim fails on the code.  The first length rule of
    is_junk_entry junks every stripped text of at most two characters
    before the short whitelist is consulted, so the whitelisted
    abbreviations ir, gi, ed and er are flagged as junk on account of
    their length; only the three-letter whitelisted entries survive. -/
theorem C9_whitelist_dead :
    is_junk_entry (str "ir") = true ∧ str "ir" ∈ shortValidAbbr ∧
    is_junk_entry (str "gi") = true ∧ is_junk_entry (str "ed") = true ∧
    is_junk_entry (str "er") = true ∧ is_junk_entry (str "icu") = false := by decide

/-- C10: map_text is total; an input whose splitter output is empty yields
    an empty code list, confidence zero and an empty explanation, and a
    nonempty code list can only arise when at least one phrase exists (the
    arithmetic mean is therefore only formed over a nonempty list). -/
theorem C10_map_text_total (m : Mapper) (t : Str) :
    (split_specialties (normalize t) = [] → map_text m t = ([], 0, [])) ∧
    ((map_text m t).1 ≠ [] → split_specialties (normalize t) ≠ []) := by
  have h1 : split_specialties (normalize t) = [] → map_text m t = ([], 0, []) := by
    intro h
    simp [map_text, h, joinSep]
  refine ⟨h1, fun hne h => ?_⟩
  rw [h1 h] at hne
  simp at hne

unseal Rat.mul Rat.add Rat.sub Rat.inv in
theorem C10_map_text_total_witness :
    map_text mEmpty (str " ") = ([], 0, []) ∧
    split_specialties (normalize (str "Cardiology")) ≠ [] := by
  constructor
  · exact (C10_map_text_total mEmpty (str " ")).1 (by decide)
  · exact (C10_map_text_total mX (str "Cardiology")).2 (by decide)

theorem foldr_max_ge (l : List ℚ) (x : ℚ) (h : x ∈ l) : x ≤ l.foldr max 0 := by
  induction l with
  | nil => cases h
  | cons d ds ih =>
    rcases List.mem_cons.mp h with rfl | h2
    · exact le_max_left _ _
    · exact le_trans (ih h2) (le_max_right _ _)

theorem foldr_max_le (l : List ℚ) (y : ℚ) (h0 : 0 ≤ y) (h : ∀ x ∈ l, x ≤ y) :
    l.foldr max 0 ≤ y := by
  induction l with
  | nil => simpa using h0
  | cons d ds ih =>
    simp only [List.foldr_cons]
    exact max_le (h d (List.mem_cons_self d ds)) (ih fun x hx => h x (List.mem_cons_of_mem d hx))

theorem le_poolBest (cands : List Cand) (c : Cand) (h : c ∈ cands) : c.2.1 ≤ poolBest cands :=
  foldr_max_ge _ _ (List.mem_map_of_mem _ h)

theorem poolBest_le (cands : List Cand) (y : ℚ) (h0 : 0 ≤ y)
    (h : ∀ c ∈ cands, c.2.1 ≤ y) : poolBest cands ≤ y := by
  apply foldr_max_le _ _ h0
  intro x hx
  obtain ⟨c, hc, rfl⟩ := List.mem_map.mp hx
  exact h c hc

theorem token_overlap_def (a b : Str) : token_overlap a b =
    if (splitWs a).toFinset = ∅ ∨ (splitWs b).toFinset = ∅ then 0
    else (((splitWs a).toFinset ∩ (splitWs b).toFinset).card : ℚ) /
      (((splitWs a).toFinset ∪ (splitWs b).toFinset).card : ℚ) := rfl

theorem token_overlap_nonneg (a b : Str) : 0 ≤ token_overlap a b := by
  rw [token_overlap_def]
  split
  · exact le_refl 0
  · positivity

theorem token_overlap_le_one (a b : Str) : token_overlap a b ≤ 1 := by
  rw [token_overlap_def]
  split
  · norm_num
  · rename_i h
    push_neg at h
    have hsub : (splitWs a).toFinset ∩ (splitWs b).toFinset ⊆
        (splitWs a).toFinset ∪ (splitWs b).toFinset :=
      le_trans Finset.inter_subset_left Finset.subset_union_left
    have hcard := Finset.card_le_card hsub
    have hpos : 0 < ((splitWs a).toFinset ∪ (splitWs b).toFinset).card :=
      Finset.card_pos.mpr ((Finset.nonempty_iff_ne_empty.mpr h.1).mono Finset.subset_union_left)
    rw [div_le_one (by exact_mod_cast hpos)]
    exact_mod_cast hcard

theorem lcsGo_le_left : ∀ (fuel : Nat) (a b : Str), lcsGo fuel a b ≤ a.length := by
  intro fuel
  induction fuel with
  | zero => intro a b; simp [lcsGo]
  | succ n ih =>
    intro a b
    cases a with
    | nil => simp [lcsGo]
    | cons x xs =>
      cases b with
      | nil => simp [lcsGo]
      | cons y ys =>
        simp only [lcsGo, List.length_cons]
        split
        · have := ih xs ys; omega
        · have h1 := ih (x :: xs) ys
          have h2 := ih xs (y :: ys)
          simp only [List.length_cons] at h1 h2
          omega

theorem lcsGo_le_right : ∀ (fuel : Nat) (a b : Str), lcsGo fuel a b ≤ b.length := by
  intro fuel
  induction fuel with
  | zero => intro a b; simp [lcsGo]
  | succ n ih =>
    intro a b
    cases a with
    | nil => simp [lcsGo]
    | cons x xs =>
      cases b with
      | nil => simp [lcsGo]
      | cons y ys =>
        simp only [lcsGo, List.length_cons]
        split
        · have := ih xs ys; omega
        · have h1 := ih (x :: xs) ys
          have h2 := ih xs (y :: ys)
          simp only [List.length_cons] at h1 h2
          omega

theorem ratioQ_nonneg (a b : Str) : 0 ≤ ratioQ a b := by
  unfold ratioQ
  split
  · norm_num
  · positivity

theorem ratioQ_le_hundred (a b : Str) : ratioQ a b ≤ 100 := by
  unfold ratioQ
  split
  · norm_num
  · rename_i h
    have hpos : (0 : ℚ) < ((a.length + b.length : Nat) : ℚ) := by
      have : 0 < a.length + b.length := Nat.pos_of_ne_zero h
      exact_mod_cast this
    rw [div_le_iff₀ hpos]
    have hlcs : 2 * lcsN a b ≤ a.length + b.length := by
      have h1 := lcsGo_le_left (a.length + b.length) a b
      have h2 := lcsGo_le_right (a.length + b.length) a b
      unfold lcsN
      omega
    have hq : (2 : ℚ) * (lcsN a b : ℚ) ≤ ((a.length + b.length : Nat) : ℚ) := by
      exact_mod_cast hlcs
    push_cast at hq ⊢
    linarith

theorem tsr_nonneg (a b : Str) : 0 ≤ tsr a b := ratioQ_nonneg _ _

theorem tsr_le_hundred (a b : Str) : tsr a b ≤ 100 := ratioQ_le_hundred _ _

theorem extractTop_scores (q : Str) (choices : List Str) (lim : Nat) :
    ∀ ps ∈ extractTop q choices lim, 0 ≤ ps.2 ∧ ps.2 ≤ 100 := by
  intro ps hps
  have h1 : ps ∈ sSort (fun a b => decide (b.2 ≤ a.2))
      (choices.map fun c => (c, tsr q c)) := List.mem_of_mem_take hps
  rw [sSort_mem] at h1
  obtain ⟨c, _, rfl⟩ := List.mem_map.mp h1
  exact ⟨tsr_nonneg q c, tsr_le_hundred q c⟩

theorem fuzzy_match_scores (m : Mapper) (q : Str) :
    ∀ c ∈ fuzzy_match m q, ∃ s, 0 ≤ s ∧ s ≤ 100 ∧ c.2.1 = s / 100 := by
  unfold fuzzy_match
  have hgen : ∀ L : List (Str × ℚ), (∀ ps ∈ L, 0 ≤ ps.2 ∧ ps.2 ≤ 100) →
      ∀ c ∈ L.foldr (fun ps acc =>
        if 3/4 ≤ ps.2 / 100 ∧ 0 < token_overlap q ps.1 then
          match m.entries.find? (fun e => decide (e.canonical = ps.1)) with
          | some e => (e.code, ps.2 / 100, str "fuzzy:" ++ fmtQ (ps.2 / 100)) :: acc
          | none => acc
        else acc) [],
      ∃ s, 0 ≤ s ∧ s ≤ 100 ∧ c.2.1 = s / 100 := by
    intro L
    induction L with
    | nil => intro _ c hc; cases hc
    | cons p ps ih =>
      intro hb c hc
      simp only [List.foldr_cons] at hc
      by_cases hcond : 3/4 ≤ p.2 / 100 ∧ 0 < token_overlap q p.1
      · rw [if_pos hcond] at hc
        cases hfind : m.entries.find? (fun e => decide (e.canonical = p.1)) with
        | none =>
          rw [hfind] at hc
          exact ih (fun x hx => hb x (List.mem_cons_of_mem p hx)) c hc
        | some e =>
          rw [hfind] at hc
          rcases List.mem_cons.mp hc with rfl | hc2
          · exact ⟨p.2, (hb p (List.mem_cons_self p ps)).1, (hb p (List.mem_cons_self p ps)).2, rfl⟩
          · exact ih (fun x hx => hb x (List.mem_cons_of_mem p hx)) c hc2
      · rw [if_neg hcond] at hc
        exact ih (fun x hx => hb x (List.mem_cons_of_mem p hx)) c hc
  exact hgen _ (extractTop_scores q (canonicals m) 10)

theorem cand_bounds (m : Mapper) (q : Str) (c : Cand) (h : c ∈ pooled m q) :
    0 ≤ c.2.1 ∧ c.2.1 ≤ 1 := by
  rcases List.mem_append.mp h with het | hf
  · rcases List.mem_append.mp het with he | ht
    · unfold exact_match at he
      obtain ⟨e, _, rfl⟩ := List.mem_map.mp he
      norm_num
    · unfold token_match at ht
      obtain ⟨e, _, hsome⟩ := List.mem_filterMap.mp ht
      by_cases hcond : (7 : ℚ)/10 ≤ token_overlap q e.canonical
      · simp only [if_pos hcond, Option.some.injEq] at hsome
        subst hsome
        exact ⟨token_overlap_nonneg _ _, token_overlap_le_one _ _⟩
      · simp only [if_neg hcond] at hsome
        cases hsome
  · obtain ⟨s, h0, h100, hc⟩ := fuzzy_match_scores m q c hf
    rw [hc]
    constructor
    · positivity
    · rw [div_le_one (by norm_num : (0 : ℚ) < 100)]
      exact h100

theorem sSort_eq_nil (f : α → α → Bool) (l : List α) : sSort f l = [] ↔ l = [] := by
  constructor
  · intro h
    exact ((h ▸ sSort_perm f l : ([] : List α).Perm l)).symm.eq_nil
  · intro h
    rw [h]
    rfl

theorem upsert_ne_nil (best : List Cand) (c : Cand) : upsert best c ≠ [] := by
  unfold upsert
  split
  · rename_i h
    cases best with
    | nil => simp at h
    | cons b bs => simp
  · simp

theorem foldl_upsert_ne_nil : ∀ (cands best : List Cand), best ≠ [] →
    cands.foldl upsert best ≠ [] := by
  intro cands
  induction cands with
  | nil => intro best h; simpa using h
  | cons c cs ih => intro best _; exact ih _ (upsert_ne_nil best c)

theorem foldl_upsert_ne_nil' (cands : List Cand) (h : cands ≠ []) :
    cands.foldl upsert [] ≠ [] := by
  cases cands with
  | nil => exact absurd rfl h
  | cons c cs =>
    rw [List.foldl_cons]
    exact foldl_upsert_ne_nil cs _ (upsert_ne_nil [] c)

theorem upsert_scores (best : List Cand) (c : Cand) :
    ∀ b ∈ upsert best c, (∃ b0 ∈ best, b.2.1 = b0.2.1) ∨ b.2.1 = c.2.1 := by
  intro b hb
  unfold upsert at hb
  split at hb
  · obtain ⟨b0, hb0, hbeq⟩ := List.mem_map.mp hb
    by_cases hcond : b0.1 = c.1 ∧ b0.2.1 < c.2.1
    · rw [if_pos hcond] at hbeq
      right
      rw [← hbeq]
    · rw [if_neg hcond] at hbeq
      left
      exact ⟨b0, hb0, by rw [← hbeq]⟩
  · rcases List.mem_append.mp hb with hb1 | hb2
    · left; exact ⟨b, hb1, rfl⟩
    · right
      rcases List.mem_singleton.mp hb2 with rfl
      rfl

theorem foldl_upsert_scores : ∀ (cands best : List Cand) (b : Cand),
    b ∈ cands.foldl upsert best →
    (∃ b0 ∈ best, b.2.1 = b0.2.1) ∨ ∃ c ∈ cands, b.2.1 = c.2.1 := by
  intro cands
  induction cands with
  | nil => intro best b hb; left; exact ⟨b, hb, rfl⟩
  | cons c cs ih =>
    intro best b hb
    rw [List.foldl_cons] at hb
    rcases ih _ b hb with ⟨b0, hb0, heq⟩ | ⟨c2, hc2, heq⟩
    · rcases upsert_scores best c b0 hb0 with ⟨b1, hb1, heq1⟩ | heq1
      · left; exact ⟨b1, hb1, heq.trans heq1⟩
      · right; exact ⟨c, List.mem_cons_self c cs, heq.trans heq1⟩
    · right; exact ⟨c2, List.mem_cons_of_mem c hc2, heq⟩

theorem upsert_grow (best : List Cand) (c : Cand) (x : ℚ)
    (h : ∃ b ∈ best, x ≤ b.2.1) : ∃ b ∈ upsert best c, x ≤ b.2.1 := by
  obtain ⟨b0, hb0, hx⟩ := h
  unfold upsert
  split
  · refine ⟨(fun b => if b.1 = c.1 ∧ b.2.1 < c.2.1 then (b.1, c.2) else b) b0,
      List.mem_map_of_mem _ hb0, ?_⟩
    by_cases hcond : b0.1 = c.1 ∧ b0.2.1 < c.2.1
    · simp only [if_pos hcond]
      exact le_of_lt (lt_of_le_of_lt hx hcond.2)
    · simp only [if_neg hcond]
      exact hx
  · exact ⟨b0, List.mem_append_left _ hb0, hx⟩

theorem upsert_self (best : List Cand) (c : Cand) : ∃ b ∈ upsert best c, c.2.1 ≤ b.2.1 := by
  unfold upsert
  split
  · rename_i hany
    obtain ⟨b0, hb0, hb0c⟩ := List.any_eq_true.mp hany
    have hb0c' : b0.1 = c.1 := of_decide_eq_true hb0c
    refine ⟨(fun b => if b.1 = c.1 ∧ b.2.1 < c.2.1 then (b.1, c.2) else b) b0,
      List.mem_map_of_mem _ hb0, ?_⟩
    by_cases hlt : b0.2.1 < c.2.1
    · simp only [if_pos (And.intro hb0c' hlt)]
      exact le_refl _
    · have hcond : ¬(b0.1 = c.1 ∧ b0.2.1 < c.2.1) := fun hpair => hlt hpair.2
      simp only [if_neg hcond]
      exact not_lt.mp hlt
  · exact ⟨c, List.mem_append_right _ (List.mem_singleton_self c), le_refl _⟩

theorem foldl_upsert_grow : ∀ (cands best : List Cand) (x : ℚ),
    (∃ b ∈ best, x ≤ b.2.1) → ∃ b ∈ cands.foldl upsert best, x ≤ b.2.1 := by
  intro cands
  induction cands with
  | nil => intro best x h; exact h
  | cons c cs ih => intro best x h; exact ih _ x (upsert_grow best c x h)

theorem foldl_upsert_covers (cands : List Cand) (c : Cand) (hc : c ∈ cands) :
    ∀ best, ∃ b ∈ cands.foldl upsert best, c.2.1 ≤ b.2.1 := by
  induction cands with
  | nil => cases hc
  | cons d ds ih =>
    intro best
    rw [List.foldl_cons]
    rcases List.mem_cons.mp hc with rfl | hc2
    · exact foldl_upsert_grow ds _ _ (upsert_self best c)
    · exact ih hc2 _

theorem map_one_def (m : Mapper) (t : Str) :
    map_one m t =
      (if normalize (expand_synonyms m t) = [] then ([], 0, str "empty")
       else if pooled m (normalize (expand_synonyms m t)) = [] then ([], 0, str "no match")
       else if ((sSort (fun a b => decide (b.2.1 ≤ a.2.1))
            ((pooled m (normalize (expand_synonyms m t))).foldl upsert [])).headD
            ([], 0, [])).2.1 < m.threshold then
         ([], ((sSort (fun a b => decide (b.2.1 ≤ a.2.1))
            ((pooled m (normalize (expand_synonyms m t))).foldl upsert [])).headD
            ([], 0, [])).2.1, str "junk-low-confidence")
       else ([((sSort (fun a b => decide (b.2.1 ≤ a.2.1))
            ((pooled m (normalize (expand_synonyms m t))).foldl upsert [])).headD
            ([], 0, [])).1],
         ((sSort (fun a b => decide (b.2.1 ≤ a.2.1))
            ((pooled m (normalize (expand_synonyms m t))).foldl upsert [])).headD
            ([], 0, [])).2.1,
         ((sSort (fun a b => decide (b.2.1 ≤ a.2.1))
            ((pooled m (normalize (expand_synonyms m t))).foldl upsert [])).headD
            ([], 0, [])).2.2)) := rfl

/-- C2: for a nonempty normalized query, an empty candidate pool yields an
    empty code list with reason no match, and a nonempty pool whose best
    score is below the mapper's confidence threshold yields an empty code
    list carrying that best score with reason junk-low-confidence. -/
theorem C2_threshold (m : Mapper) (t : Str)
    (hq : normalize (expand_synonyms m t) ≠ []) :
    (pooled m (normalize (expand_synonyms m t)) = [] →
      map_one m t = ([], 0, str "no match")) ∧
    (pooled m (normalize (expand_synonyms m t)) ≠ [] →
      poolBest (pooled m (normalize (expand_synonyms m t))) < m.threshold →
      map_one m t = ([], poolBest (pooled m (normalize (expand_synonyms m t))),
        str "junk-low-confidence")) := by
  constructor
  · intro hc
    rw [map_one_def, if_neg hq, if_pos hc]
  · intro hc hlt
    rw [map_one_def, if_neg hq, if_neg hc]
    set q := normalize (expand_synonyms m t) with hqdef
    set best := (pooled m q).foldl upsert [] with hbdef
    have hbest : best ≠ [] := foldl_upsert_ne_nil' _ hc
    set merged := sSort (fun a b => decide (b.2.1 ≤ a.2.1)) best with hmdef
    have hmne : merged ≠ [] := fun h0 => hbest ((sSort_eq_nil _ _).mp (hmdef ▸ h0))
    have hmem : merged.headD ([], 0, []) ∈ best := by
      rw [hmdef] at hmne ⊢
      exact (sSort_mem _ best _).mp (headD_mem _ hmne)
    have hle : (merged.headD ([], 0, [])).2.1 ≤ poolBest (pooled m q) := by
      rcases foldl_upsert_scores (pooled m q) [] _ (hbdef ▸ hmem) with
        ⟨b0, hb0, _⟩ | ⟨c2, hc2, heq⟩
      · simp at hb0
      · rw [heq]; exact le_poolBest _ _ hc2
    have hge : poolBest (pooled m q) ≤ (merged.headD ([], 0, [])).2.1 := by
      apply poolBest_le
      · rcases foldl_upsert_scores (pooled m q) [] _ (hbdef ▸ hmem) with
          ⟨b0, hb0, _⟩ | ⟨c2, hc2, heq⟩
        · simp at hb0
        · rw [heq]; exact (cand_bounds m q c2 hc2).1
      · intro c hcmem
        obtain ⟨b, hb, hcb⟩ := foldl_upsert_covers (pooled m q) c hcmem []
        refine le_trans hcb ?_
        have hhg := sSort_head_ge (fun x : Cand => x.2.1) best ([], 0, []) b (hbdef ▸ hb)
        simpa using hhg
    have hscore : (merged.headD ([], 0, [])).2.1 = poolBest (pooled m q) :=
      le_antisymm hle hge
    rw [hscore, if_pos hlt]

unseal Rat.mul Rat.add Rat.sub Rat.inv in
theorem C2_threshold_witness :
    map_one mEmpty (str "zz") = ([], 0, str "no match") ∧
    map_one mLow (str "a b c") = ([], 5/6, str "junk-low-confidence") := by
  constructor
  · exact (C2_threshold mEmpty (str "zz") (by decide)).1 (by decide)
  · exact ((C2_threshold mLow (str "a b c") (by decide)).2 (by decide) (by decide)).trans
      (by decide)

theorem find?_eq_filter_head (p : α → Bool) : ∀ l : List α, l.find? p = (l.filter p).head? := by
  intro l
  induction l with
  | nil => rfl
  | cons x xs ih =>
    by_cases h : p x
    · rw [List.find?_cons_of_pos _ h, List.filter_cons_of_pos h]
      rfl
    · rw [List.find?_cons_of_neg _ (by simpa using h),
        List.filter_cons_of_neg (by simpa using h), ih]

theorem foldl_upsert_head : ∀ (cands best : List Cand) (k w : Str),
    best.head? = some (k, 1, w) → (∀ c ∈ cands, c.2.1 ≤ 1) →
    (cands.foldl upsert best).head? = some (k, 1, w) := by
  intro cands
  induction cands with
  | nil => intro best k w hh _; exact hh
  | cons c cs ih =>
    intro best k w hh hb
    rw [List.foldl_cons]
    have hstep : (upsert best c).head? = some (k, 1, w) := by
      cases best with
      | nil => simp at hh
      | cons b bs =>
        simp only [List.head?_cons, Option.some.injEq] at hh
        subst hh
        unfold upsert
        split
        · simp only [List.map_cons, List.head?_cons, Option.some.injEq]
          have hcond : ¬((k, (1 : ℚ), w).1 = c.1 ∧ (k, (1 : ℚ), w).2.1 < c.2.1) := by
            rintro ⟨_, hlt⟩
            exact absurd hlt (not_lt.mpr (hb c (List.mem_cons_self c cs)))
          rw [if_neg hcond]
        · simp
    exact ih _ k w hstep fun x hx => hb x (List.mem_cons_of_mem c hx)

/-- C1: whenever the normalized synonym-expanded query is nonempty and
    equals the canonical phrase of some taxonomy entry (the first such
    entry, as found by the index), map_one resolves to that entry's code
    with score 1 and reason exact, whatever the token-overlap and fuzzy
    strategies contribute to the pool; the mapper's threshold is assumed
    to be at most 1, as the default 0.65 is. -/
theorem C1_exact_priority (m : Mapper) (t : Str) (e : Entry)
    (hq : normalize (expand_synonyms m t) ≠ [])
    (hfind : m.entries.find?
      (fun en => decide (en.canonical = normalize (expand_synonyms m t))) = some e)
    (hthr : m.threshold ≤ 1) :
    map_one m t = ([e.code], 1, str "exact") := by
  set q := normalize (expand_synonyms m t) with hqdef
  have hhead : (exact_match m q).head? = some (e.code, 1, str "exact") := by
    unfold exact_match
    rw [List.head?_map, ← find?_eq_filter_head, hfind]
    rfl
  obtain ⟨l1, hl1⟩ : ∃ l1, exact_match m q = (e.code, (1 : ℚ), str "exact") :: l1 := by
    cases hx : exact_match m q with
    | nil => rw [hx] at hhead; simp at hhead
    | cons a l1 =>
      rw [hx] at hhead
      simp only [List.head?_cons, Option.some.injEq] at hhead
      exact ⟨l1, by rw [hhead]⟩
  have hcands : pooled m q
      = (e.code, (1 : ℚ), str "exact") :: (l1 ++ (token_match m q ++ fuzzy_match m q)) := by
    unfold pooled
    rw [hl1]
    simp [List.append_assoc]
  have hne : pooled m q ≠ [] := by rw [hcands]; simp
  have hall : ∀ c ∈ pooled m q, c.2.1 ≤ 1 := fun c hc => (cand_bounds m q c hc).2
  have hrest : ∀ c ∈ l1 ++ (token_match m q ++ fuzzy_match m q), c.2.1 ≤ 1 := by
    intro c hc
    exact hall c (by rw [hcands]; exact List.mem_cons_of_mem _ hc)
  have hfold : ((pooled m q).foldl upsert []).head? = some (e.code, 1, str "exact") := by
    rw [hcands, List.foldl_cons]
    have h1 : upsert [] (e.code, (1 : ℚ), str "exact") = [(e.code, (1 : ℚ), str "exact")] := rfl
    rw [h1]
    exact foldl_upsert_head _ _ _ _ rfl hrest
  obtain ⟨bs, hbs⟩ : ∃ bs,
      (pooled m q).foldl upsert [] = (e.code, (1 : ℚ), str "exact") :: bs := by
    cases hx : (pooled m q).foldl upsert [] with
    | nil => rw [hx] at hfold; simp at hfold
    | cons a bs =>
      rw [hx] at hfold
      simp only [List.head?_cons, Option.some.injEq] at hfold
      exact ⟨bs, by rw [hfold]⟩
  have hbs1 : ∀ y ∈ bs, y.2.1 ≤ 1 := by
    intro y hy
    have hyb : y ∈ (pooled m q).foldl upsert [] := by
      rw [hbs]
      exact List.mem_cons_of_mem _ hy
    rcases foldl_upsert_scores (pooled m q) [] y hyb with ⟨b0, hb0, _⟩ | ⟨c2, hc2, heq⟩
    · simp at hb0
    · rw [heq]; exact hall c2 hc2
  rw [map_one_def, ← hqdef, if_neg hq, if_neg hne, hbs]
  have hsort : sSort (fun a b => decide (b.2.1 ≤ a.2.1))
        ((e.code, (1 : ℚ), str "exact") :: bs)
      = (e.code, (1 : ℚ), str "exact")
        :: sSort (fun a b => decide (b.2.1 ≤ a.2.1)) bs := by
    show sInsert _ _ _ = _
    apply sInsert_front
    intro y hy
    have hy1 : y ∈ sSort (fun a b => decide (b.2.1 ≤ a.2.1)) bs := hy
    have hy2 : y ∈ bs := (sSort_mem (fun a b => decide (b.2.1 ≤ a.2.1)) bs y).mp hy1
    simpa using hbs1 y hy2
  rw [hsort]
  simp only [List.headD_cons]
  rw [if_neg (not_lt.mpr hthr)]

unseal Rat.mul Rat.add Rat.sub Rat.inv in
theorem C1_exact_priority_witness :
    map_one mX (str "Cardiology") = ([str "X"], 1, str "exact") := by
  exact C1_exact_priority mX (str "Cardiology") ⟨str "X", str "cardiology"⟩
    (by decide) (by decide) (by decide)

theorem mem_firstSeenGo (x : Str) : ∀ (l seen : List Str),
    x ∈ firstSeenGo seen l ↔ x ∈ l ∧ x ∉ seen := by
  intro l
  induction l with
  | nil => intro seen; simp [firstSeenGo]
  | cons y ys ih =>
    intro seen
    by_cases hy : y ∈ seen
    · rw [show firstSeenGo seen (y :: ys) = firstSeenGo seen ys by simp [firstSeenGo, hy]]
      rw [ih seen]
      constructor
      · rintro ⟨h1, h2⟩; exact ⟨List.mem_cons_of_mem y h1, h2⟩
      · rintro ⟨h1, h2⟩
        rcases List.mem_cons.mp h1 with rfl | h3
        · exact absurd hy h2
        · exact ⟨h3, h2⟩
    · rw [show firstSeenGo seen (y :: ys) = y :: firstSeenGo (y :: seen) ys by
        simp [firstSeenGo, hy]]
      constructor
      · intro hx
        rcases List.mem_cons.mp hx with rfl | h3
        · exact ⟨List.mem_cons_self x ys, hy⟩
        · rw [ih (y :: seen)] at h3
          refine ⟨List.mem_cons_of_mem y h3.1, fun hc => h3.2 (List.mem_cons_of_mem y hc)⟩
      · rintro ⟨h1, h2⟩
        rcases List.mem_cons.mp h1 with rfl | h3
        · exact List.mem_cons_self x _
        · by_cases hxy : x = y
          · subst hxy; exact List.mem_cons_self x _
          · refine List.mem_cons_of_mem y ((ih (y :: seen)).mpr ⟨h3, ?_⟩)
            intro hc
            rcases List.mem_cons.mp hc with h4 | h4
            · exact hxy h4
            · exact h2 h4

theorem fsGo_append_mem (c : Str) : ∀ (l seen : List Str), c ∈ seen ∨ c ∈ l →
    firstSeenGo seen (l ++ [c]) = firstSeenGo seen l := by
  intro l
  induction l with
  | nil =>
    intro seen h
    have hc : c ∈ seen := by simpa using h
    simp [firstSeenGo, hc]
  | cons y ys ih =>
    intro seen h
    by_cases hy : y ∈ seen
    · simp only [List.cons_append, firstSeenGo, if_pos hy]
      apply ih
      rcases h with h | h
      · exact Or.inl h
      · rcases List.mem_cons.mp h with rfl | h2
        · exact Or.inl hy
        · exact Or.inr h2
    · simp only [List.cons_append, firstSeenGo, if_neg hy, List.append_eq]
      rw [ih (y :: seen)]
      rcases h with h | h
      · exact Or.inl (List.mem_cons_of_mem y h)
      · rcases List.mem_cons.mp h with rfl | h2
        · exact Or.inl (List.mem_cons_self c seen)
        · exact Or.inr h2

theorem fsGo_append_new (c : Str) : ∀ (l seen : List Str), c ∉ seen → c ∉ l →
    firstSeenGo seen (l ++ [c]) = firstSeenGo seen l ++ [c] := by
  intro l
  induction l with
  | nil => intro seen h1 _; simp [firstSeenGo, h1]
  | cons y ys ih =>
    intro seen h1 h2
    by_cases hy : y ∈ seen
    · simp only [List.cons_append, firstSeenGo, if_pos hy]
      exact ih seen h1 fun hc => h2 (List.mem_cons_of_mem y hc)
    · simp only [List.cons_append, firstSeenGo, if_neg hy, List.append_eq]
      rw [ih (y :: seen) ?hs fun hc => h2 (List.mem_cons_of_mem y hc)]
      case hs =>
        intro hc
        rcases List.mem_cons.mp hc with rfl | h3
        · exact h2 (List.mem_cons_self c ys)
        · exact h1 h3

theorem bump_counterSpec (L : List Str) (c : Str) :
    bump (counterSpec L) c = counterSpec (L ++ [c]) := by
  by_cases h : c ∈ L
  · have hany : (counterSpec L).any (fun p => decide (p.1 = c)) = true := by
      rw [List.any_eq_true]
      refine ⟨(c, L.count c), ?_, by simp⟩
      exact List.mem_map_of_mem _ ((mem_firstSeenGo c L []).mpr ⟨h, by simp⟩)
    unfold bump
    rw [if_pos hany]
    unfold counterSpec firstSeen
    rw [fsGo_append_mem c L [] (Or.inr h), List.map_map]
    apply List.map_congr_left
    intro x _
    by_cases hxc : x = c
    · subst hxc
      simp [List.count_append]
    · simp [hxc, List.count_append]
  · have hany : ¬ (counterSpec L).any (fun p => decide (p.1 = c)) = true := by
      intro hc
      obtain ⟨p, hp, hpc⟩ := List.any_eq_true.mp hc
      obtain ⟨x, hx, rfl⟩ := List.mem_map.mp hp
      have hxc : x = c := of_decide_eq_true hpc
      subst hxc
      exact h ((mem_firstSeenGo x L []).mp hx).1
    unfold bump
    rw [if_neg hany]
    unfold counterSpec firstSeen
    rw [fsGo_append_new c L [] (by simp) h, List.map_append]
    congr 1
    · apply List.map_congr_left
      intro x hx
      have hxc : x ≠ c := by
        intro he
        exact h (he ▸ ((mem_firstSeenGo x L []).mp hx).1)
      simp [List.count_append, hxc]
    · simp [List.count_append, List.count_eq_zero.mpr h]

theorem foldl_bump (codes : List Str) : ∀ L : List Str,
    codes.foldl bump (counterSpec L) = counterSpec (L ++ codes) := by
  induction codes with
  | nil => intro L; simp
  | cons c cs ih =>
    intro L
    rw [List.foldl_cons, bump_counterSpec, ih (L ++ [c]), List.append_assoc]
    rfl

theorem mapText_fold (m : Mapper) : ∀ (parts : List Str) (L : List Str)
    (confs : List ℚ) (rs : List Str),
    parts.foldl (mapTextStep m) (counterSpec L, confs, rs) =
      (counterSpec (L ++ (parts.map (fun p => (map_one m p).1)).flatten),
       confs ++ parts.map (fun p => (map_one m p).2.1),
       rs ++ parts.map (fun p => partReason p (map_one m p).1 (map_one m p).2.1)) := by
  intro parts
  induction parts with
  | nil => intro L confs rs; simp
  | cons p ps ih =>
    intro L confs rs
    rw [List.foldl_cons]
    show ps.foldl (mapTextStep m)
        ((map_one m p).1.foldl bump (counterSpec L),
         confs ++ [(map_one m p).2.1],
         rs ++ [partReason p (map_one m p).1 (map_one m p).2.1]) = _
    rw [foldl_bump, ih (L ++ (map_one m p).1)]
    simp [List.append_assoc]

theorem mapText_fold_nil (m : Mapper) (parts : List Str) :
    parts.foldl (mapTextStep m)
      (([] : List (Str × Nat)), ([] : List ℚ), ([] : List Str)) =
      (counterSpec ((parts.map (fun p => (map_one m p).1)).flatten),
       parts.map (fun p => (map_one m p).2.1),
       parts.map (fun p => partReason p (map_one m p).1 (map_one m p).2.1)) := by
  have h := mapText_fold m parts [] [] []
  simpa using h

theorem counterSpec_eq_nil_iff (l : List Str) : counterSpec l = [] ↔ l = [] := by
  cases l with
  | nil => simp [counterSpec, firstSeen, firstSeenGo]
  | cons x xs => simp [counterSpec, firstSeen, firstSeenGo]

theorem map_one_conf_bounds (m : Mapper) (t : Str) :
    0 ≤ (map_one m t).2.1 ∧ (map_one m t).2.1 ≤ 1 := by
  rw [map_one_def]
  set q := normalize (expand_synonyms m t) with hqdef
  by_cases hq : q = []
  · rw [if_pos hq]; norm_num
  · rw [if_neg hq]
    by_cases hc : pooled m q = []
    · rw [if_pos hc]; norm_num
    · rw [if_neg hc]
      set best := (pooled m q).foldl upsert [] with hbdef
      have hbest : best ≠ [] := foldl_upsert_ne_nil' _ hc
      set merged := sSort (fun a b => decide (b.2.1 ≤ a.2.1)) best with hmdef
      have hmne : merged ≠ [] := fun h0 => hbest ((sSort_eq_nil _ _).mp (hmdef ▸ h0))
      have hmem : merged.headD ([], 0, []) ∈ best := by
        rw [hmdef] at hmne ⊢
        exact (sSort_mem _ best _).mp (headD_mem _ hmne)
      have hb : 0 ≤ (merged.headD ([], 0, [])).2.1 ∧ (merged.headD ([], 0, [])).2.1 ≤ 1 := by
        rcases foldl_upsert_scores (pooled m q) [] _ (hbdef ▸ hmem) with
          ⟨b0, hb0, _⟩ | ⟨c2, hc2, heq⟩
        · simp at hb0
        · rw [heq]; exact cand_bounds m q c2 hc2
      split
      · exact hb
      · exact hb

theorem foldl_add_eq_sum (l : List ℚ) : l.foldl (· + ·) 0 = l.sum := by
  have hgen : ∀ (l : List ℚ) (a : ℚ), l.foldl (· + ·) a = a + l.sum := by
    intro l
    induction l with
    | nil => intro a; simp
    | cons x xs ih =>
      intro a
      rw [List.foldl_cons, ih, List.sum_cons]
      ring
  simpa using hgen l 0

theorem list_sum_le_length (l : List ℚ) (h : ∀ x ∈ l, x ≤ 1) : l.sum ≤ (l.length : ℚ) := by
  induction l with
  | nil => simp
  | cons x xs ih =>
    simp only [List.sum_cons, List.length_cons]
    push_cast
    have h1 := ih fun y hy => h y (List.mem_cons_of_mem x hy)
    have hx := h x (List.mem_cons_self x xs)
    linarith

theorem map_text_def (m : Mapper) (t : Str) :
    map_text m t =
      (if ((split_specialties (normalize t)).foldl (mapTextStep m)
            (([] : List (Str × Nat)), ([] : List ℚ), ([] : List Str))).1 = [] then
        ([], 0, joinSep (str "; ")
          ((split_specialties (normalize t)).foldl (mapTextStep m)
            (([] : List (Str × Nat)), ([] : List ℚ), ([] : List Str))).2.2)
       else
        (((sSort (fun a b => decide (b.2 ≤ a.2))
            ((split_specialties (normalize t)).foldl (mapTextStep m)
              (([] : List (Str × Nat)), ([] : List ℚ), ([] : List Str))).1).take 3).map
            Prod.fst,
         (((split_specialties (normalize t)).foldl (mapTextStep m)
            (([] : List (Str × Nat)), ([] : List ℚ), ([] : List Str))).2.1.foldl
            (· + ·) 0) /
           ((((split_specialties (normalize t)).foldl (mapTextStep m)
            (([] : List (Str × Nat)), ([] : List ℚ), ([] : List Str))).2.1.length : ℚ)),
         joinSep (str "; ")
           ((split_specialties (normalize t)).foldl (mapTextStep m)
            (([] : List (Str × Nat)), ([] : List ℚ), ([] : List Str))).2.2)) := rfl

/-- C6: every candidate score of the pooled exact, token-overlap and fuzzy
    strategies lies in the closed interval from 0 to 1, and so does the
    confidence returned by map_text for any input. -/
theorem C6_score_range (m : Mapper) :
    (∀ q c, c ∈ pooled m q → 0 ≤ c.2.1 ∧ c.2.1 ≤ 1) ∧
    (∀ t, 0 ≤ (map_text m t).2.1 ∧ (map_text m t).2.1 ≤ 1) := by
  refine ⟨fun q c hc => cand_bounds m q c hc, fun t => ?_⟩
  rw [map_text_def, mapText_fold_nil]
  set parts := split_specialties (normalize t) with hp
  by_cases hc : counterSpec ((parts.map fun p => (map_one m p).1).flatten) = []
  · rw [if_pos hc]; norm_num
  · rw [if_neg hc]
    have hjoin : (parts.map fun p => (map_one m p).1).flatten ≠ [] :=
      fun hh => hc ((counterSpec_eq_nil_iff _).mpr hh)
    have hparts : parts ≠ [] := by
      intro hh
      rw [hh] at hjoin
      simp at hjoin
    have hlen : 0 < (parts.map fun p => (map_one m p).2.1).length := by
      simp only [List.length_map]
      exact List.length_pos.mpr hparts
    have hlenq : (0 : ℚ) < ((parts.map fun p => (map_one m p).2.1).length : ℚ) := by
      exact_mod_cast hlen
    rw [foldl_add_eq_sum]
    constructor
    · apply div_nonneg _ (le_of_lt hlenq)
      apply List.sum_nonneg
      intro x hx
      obtain ⟨p, _, rfl⟩ := List.mem_map.mp hx
      exact (map_one_conf_bounds m p).1
    · rw [div_le_one hlenq]
      apply list_sum_le_length
      intro x hx
      obtain ⟨p, _, rfl⟩ := List.mem_map.mp hx
      exact (map_one_conf_bounds m p).2

unseal Rat.mul Rat.add Rat.sub Rat.inv in
theorem C6_score_range_witness :
    (0 ≤ ((str "X", (1 : ℚ), str "exact") : Cand).2.1 ∧
      ((str "X", (1 : ℚ), str "exact") : Cand).2.1 ≤ 1) ∧
    (0 ≤ (map_text mX (str "Cardiology")).2.1 ∧ (map_text mX (str "Cardiology")).2.1 ≤ 1) := by
  constructor
  · exact (C6_score_range mX).1 (str "cardiology") (str "X", 1, str "exact") (by decide)
  · exact (C6_score_range mX).2 (str "Cardiology")

/-- C7: when at least one phrase of the input yields a code, map_text
    returns the up-to-three most frequent per-phrase codes (ties broken by
    first-encountered order), the arithmetic mean of all per-phrase scores
    including those of phrases that matched nothing, and the joined
    per-phrase explanation. -/
theorem C7_aggregation (m : Mapper) (t : Str)
    (h : ((split_specialties (normalize t)).map (fun p => (map_one m p).1)).flatten ≠ []) :
    map_text m t =
      (mostCommon3 (((split_specialties (normalize t)).map (fun p => (map_one m p).1)).flatten),
       ((split_specialties (normalize t)).map (fun p => (map_one m p).2.1)).sum /
         (((split_specialties (normalize t)).length : ℚ)),
       joinSep (str "; ") ((split_specialties (normalize t)).map
         (fun p => partReason p (map_one m p).1 (map_one m p).2.1))) := by
  rw [map_text_def, mapText_fold_nil]
  set parts := split_specialties (normalize t) with hp
  set allCodes := (parts.map fun p => (map_one m p).1).flatten with ha
  have hcs : counterSpec allCodes ≠ [] := fun hh => h ((counterSpec_eq_nil_iff _).mp hh)
  rw [if_neg hcs]
  refine congrArg₂ Prod.mk rfl (congrArg₂ Prod.mk ?_ rfl)
  rw [foldl_add_eq_sum]
  congr 1
  simp [List.length_map]

unseal Rat.mul Rat.add Rat.sub Rat.inv in
theorem C7_aggregation_witness :
    map_text mX (str "cardiology,zzz")
      = ([str "X"], 1/2, str "[cardiology]→X(1.00); [zzz]→none(0.00)") := by
  exact (C7_aggregation mX (str "cardiology,zzz") (by decide)).trans (by decide)

/-- C8 counterexample: a phrase rule whose pattern does not compile (a
    lone open parenthesis) is not skipped; the code falls back to plain
    substring replacement, so the rule is applied to the text. -/
theorem C8_invalid_counterexample :
    apply_synonym_mapping litRe [⟨str "phrase", str "(", str "x"⟩] (str "a(b") = str "axb" ∧
    str "axb" ≠ str "a(b" := by decide

/-- C8 amended: when a phrase-kind rule's pattern fails to compile, the
    rule is applied through the plain-substring-replacement fallback
    rather than skipped; the rules before and after it are still applied
    and the expansion never aborts. -/
theorem C8_invalid_fallback (e : ReEngine) (pre post : List SynRule) (bad : SynRule)
    (t : Str) (hp : bad.pattern ≠ []) (hk : bad.type ∈ phraseKinds)
    (hc : e.compile bad.pattern = none) (ht : t ≠ []) :
    apply_synonym_mapping e (pre ++ bad :: post) t =
      pyStrip (joinSep [' '] (splitWs (post.foldl (applyRule e)
        (replaceSubstr bad.pattern bad.replacement (pre.foldl (applyRule e) t))))) := by
  unfold apply_synonym_mapping
  rw [if_neg ht, List.foldl_append, List.foldl_cons]
  have hnw : bad.type ∉ wordKinds := by
    intro h
    simp only [phraseKinds, List.mem_cons] at hk
    rcases hk with h1 | h1 | h1
    · rw [h1] at h; exact absurd h (by decide)
    · rw [h1] at h; exact absurd h (by decide)
    · exact absurd h1 (List.not_mem_nil _)
  have happ : applyRule e (pre.foldl (applyRule e) t) bad
      = replaceSubstr bad.pattern bad.replacement (pre.foldl (applyRule e) t) := by
    unfold applyRule
    rw [if_neg hp, if_neg hnw, if_pos hk, hc]
  rw [happ]

unseal Rat.mul Rat.add Rat.sub Rat.inv in
theorem C8_invalid_fallback_witness :
    apply_synonym_mapping litRe
        ([] ++ (⟨str "phrase", str "(", str "x"⟩ : SynRule)
          :: [⟨str "abbreviation", str "ent", str "otolaryngology"⟩]) (str "a(b ent") =
      pyStrip (joinSep [' '] (splitWs
        ([(⟨str "abbreviation", str "ent", str "otolaryngology"⟩ : SynRule)].foldl
          (applyRule litRe)
          (replaceSubstr (str "(") (str "x")
            ([].foldl (applyRule litRe) (str "a(b ent")))))) := by
  exact C8_invalid_fallback litRe [] [⟨str "abbreviation", str "ent", str "otolaryngology"⟩]
    ⟨str "phrase", str "(", str "x"⟩ (str "a(b ent") (by decide) (by decide) rfl (by decide)

theorem runsGo_wordAccum (p : Str) (hp : ∀ c ∈ p, isWordChar c = true) :
    ∀ (b acc : Str), runsGo (p ++ b) acc = runsGo b (p.reverse ++ acc) := by
  induction p with
  | nil => intro b acc; simp
  | cons c cs ih =>
    intro b acc
    have hc : isWordChar c = true := hp c (List.mem_cons_self c cs)
    rw [show runsGo ((c :: cs) ++ b) acc = runsGo (cs ++ b) (c :: acc) by
      simp [runsGo, hc]]
    rw [ih (fun x hx => hp x (List.mem_cons_of_mem c hx)) b (c :: acc)]
    simp

theorem occ_mem_runs (p : Str) (hp : p ≠ []) (hpw : ∀ c ∈ p, isWordChar c = true)
    (b : Str) (hb : wOpt b.head? = false) :
    ∀ (a acc : Str), (∀ c ∈ acc, isWordChar c = true) →
    (a = [] → acc = []) →
    (∀ lcx, a.getLast? = some lcx → isWordChar lcx = false) →
    p ∈ runsGo (a ++ p ++ b) acc := by
  intro a
  induction a with
  | nil =>
    intro acc _ hnil _
    rw [hnil rfl]
    simp only [List.nil_append]
    rw [runsGo_wordAccum p hpw b []]
    cases b with
    | nil =>
      have hne : p.reverse ++ [] ≠ [] := by simpa using hp
      simp only [runsGo, if_neg hne]
      simp
    | cons d ds =>
      have hd : isWordChar d = false := by simpa [wOpt] using hb
      have hne : p.reverse ++ [] ≠ [] := by simpa using hp
      rw [show runsGo (d :: ds) (p.reverse ++ [])
          = (p.reverse ++ []).reverse :: runsGo ds [] by simp [runsGo, hd, hne, hp]]
      simp
  | cons c as ih =>
    intro acc hacc hnil hlast
    by_cases hc : isWordChar c = true
    · cases as with
      | nil =>
        have hlc := hlast c (by simp)
        rw [hc] at hlc
        cases hlc
      | cons a2 as2 =>
        rw [show (c :: (a2 :: as2)) ++ p ++ b = c :: ((a2 :: as2) ++ p ++ b) by simp]
        rw [show runsGo (c :: ((a2 :: as2) ++ p ++ b)) acc
            = runsGo ((a2 :: as2) ++ p ++ b) (c :: acc) by simp [runsGo, hc]]
        apply ih (c :: acc) (fun x hx => by
          rcases List.mem_cons.mp hx with rfl | hx2
          · exact hc
          · exact hacc x hx2) (by simp) ?_
        intro lcx hlcx
        exact hlast lcx (by rw [List.getLast?_cons_cons]; exact hlcx)
    · have hcf : isWordChar c = false := by simpa using hc
      rw [show (c :: as) ++ p ++ b = c :: (as ++ p ++ b) by simp]
      have hmem : p ∈ runsGo (as ++ p ++ b) [] := by
        apply ih [] (by simp) (fun _ => rfl) ?_
        intro lcx hlcx
        cases as with
        | nil => simp at hlcx
        | cons a2 as2 => exact hlast lcx (by rw [List.getLast?_cons_cons]; exact hlcx)
      by_cases ha : acc = []
      · rw [show runsGo (c :: (as ++ p ++ b)) acc = runsGo (as ++ p ++ b) [] by
          simp [runsGo, hcf, ha]]
        exact hmem
      · rw [show runsGo (c :: (as ++ p ++ b)) acc
            = acc.reverse :: runsGo (as ++ p ++ b) [] by simp [runsGo, hcf, ha]]
        exact List.mem_cons_of_mem _ hmem

theorem leadsWith_drop (p s : Str) (h : leadsWith p s = true) :
    s = p ++ s.drop p.length := by
  obtain ⟨b, rfl⟩ := (leadsWith_iff p s).mp h
  rw [List.drop_left]

theorem getLastOr_shift (c : Char) (a : Str) (prev : Option Char) :
    ((c :: a).getLast?).or prev = (a.getLast?).or (some c) := by
  cases a with
  | nil => simp
  | cons x xs =>
    rw [List.getLast?_cons_cons]
    cases hx : (x :: xs).getLast? with
    | none => simp at hx
    | some l => simp

theorem subWordGo_id (p r : Str) :
    ∀ (t : Str) (fuel : Nat) (prev : Option Char),
    (∀ a b, t = a ++ p ++ b →
      ¬((wOpt ((a.getLast?).or prev) != wOpt p.head?) = true ∧
        (wOpt b.head? != wOpt p.getLast?) = true)) →
    subWordGo fuel p r prev t = t := by
  intro t
  induction t with
  | nil => intro fuel prev _; cases fuel <;> rfl
  | cons c cs ih =>
    intro fuel prev hno
    cases fuel with
    | zero => rfl
    | succ f =>
      by_cases hm : bMatch p prev (c :: cs) = true
      · exfalso
        unfold bMatch at hm
        simp only [Bool.and_eq_true, decide_eq_true_eq] at hm
        obtain ⟨⟨⟨hne, hlead⟩, hbl⟩, hbr⟩ := hm
        exact hno [] ((c :: cs).drop p.length)
          (by simpa using leadsWith_drop p (c :: cs) hlead)
          ⟨by simpa using hbl, hbr⟩
      · rw [show subWordGo (f + 1) p r prev (c :: cs)
            = c :: subWordGo f p r (some c) cs by simp [subWordGo, hm]]
        congr 1
        apply ih f (some c)
        intro a b hab hbound
        apply hno (c :: a) b (by rw [hab]; simp)
        rwa [getLastOr_shift c a prev]

theorem subWord_id_of_not_run (p r t : Str) (hp : p ≠ [])
    (hpw : ∀ c ∈ p, isWordChar c = true) (hrun : p ∉ runs t) :
    subWord p r t = t := by
  apply subWordGo_id
  intro a b hab hbound
  apply hrun
  rw [hab]
  obtain ⟨hbl, hbr⟩ := hbound
  have hph : wOpt p.head? = true := by
    cases p with
    | nil => exact absurd rfl hp
    | cons x xs => simpa [wOpt] using hpw x (List.mem_cons_self x xs)
  have hpl : wOpt p.getLast? = true := by
    cases hgl : p.getLast? with
    | none => exact absurd (List.getLast?_eq_none_iff.mp hgl) hp
    | some l =>
      have hlm : l ∈ p := List.mem_of_getLast?_eq_some hgl
      simpa [wOpt] using hpw l hlm
  rw [hph] at hbl
  rw [hpl] at hbr
  have hbl2 : wOpt ((a.getLast?).or none) = false := by
    cases hx : wOpt ((a.getLast?).or none)
    · rfl
    · rw [hx] at hbl; simp at hbl
  have hbr2 : wOpt b.head? = false := by
    cases hx : wOpt b.head?
    · rfl
    · rw [hx] at hbr; simp at hbr
  apply occ_mem_runs p hp hpw b hbr2 a [] (by simp) (fun _ => rfl)
  intro lcx hlcx
  rw [hlcx] at hbl2
  simpa [wOpt] using hbl2

/-- C4 counterexample: a phrase-kind rule applies its raw pattern with no
    word-boundary anchors, so the pattern ent rewrites the inside of the
    word dental. -/
theorem C4_boundary_counterexample :
    apply_synonym_mapping litRe [⟨str "phrase", str "ent", str "x"⟩] (str "dental")
      = str "dxal" ∧ str "dxal" ≠ str "dental" := by decide

/-- C4 amended: boundary safety holds for the word-level substitution used
    by the abbreviation-style and removal-style rule kinds (a word pattern
    with no whole-word occurrence leaves the text unchanged) and for
    expand_synonyms in mapping.py (tokens not in the dictionary are left
    alone); phrase-kind rules are exempt, as the counterexample shows. -/
theorem C4_boundary_amended :
    (∀ p r t : Str, p ≠ [] → (∀ c ∈ p, isWordChar c = true) → p ∉ runs t →
      subWord p r t = t) ∧
    (∀ (m : Mapper) (t : Str), (∀ s ∈ m.synonyms, s.1 ∉ splitWs t) →
      expand_synonyms m t = joinSep [' '] (splitWs t)) := by
  constructor
  · exact fun p r t h1 h2 h3 => subWord_id_of_not_run p r t h1 h2 h3
  · intro m t hs
    unfold expand_synonyms
    congr 1
    have hid : ∀ w ∈ splitWs t, lookupD m.synonyms w = w := by
      intro w hw
      have hf : m.synonyms.find? (fun p => decide (p.1 = w)) = none := by
        rw [List.find?_eq_none]
        intro x hx hdec
        have hxw : x.1 = w := of_decide_eq_true hdec
        exact hs x hx (hxw ▸ hw)
      simp [lookupD, hf]
    calc (splitWs t).map (lookupD m.synonyms) = (splitWs t).map id :=
          List.map_congr_left hid
      _ = splitWs t := List.map_id _

unseal Rat.mul Rat.add Rat.sub Rat.inv in
theorem C4_boundary_amended_witness :
    subWord (str "ent") (str "otolaryngology") (str "dental") = str "dental" ∧
    expand_synonyms (mkMapper [] [(str "ent", str "otolaryngology")] (13/20)) (str "dental")
      = joinSep [' '] (splitWs (str "dental")) := by
  constructor
  · exact C4_boundary_amended.1 (str "ent") (str "otolaryngology") (str "dental")
      (by decide) (by decide) (by decide)
  · exact C4_boundary_amended.2 (mkMapper [] [(str "ent", str "otolaryngology")] (13/20))
      (str "dental") (by decide)

theorem headIsWs_false (p : Str) (h : headIsWs p = false) :
    ∀ x, p.head? = some x → isWs x = false := by
  intro x hx
  unfold headIsWs at h
  rw [hx] at h
  exact h

theorem lastIsWs_false (p : Str) (h : lastIsWs p = false) :
    ∀ x, p.getLast? = some x → isWs x = false := by
  intro x hx
  unfold lastIsWs at h
  rw [hx] at h
  exact h

theorem rstripWs_id (l : Str) (h : ∀ x, l.getLast? = some x → isWs x = false) :
    rstripWs l = l := by
  induction l with
  | nil => rfl
  | cons c cs ih =>
    cases cs with
    | nil =>
      have hcw := h c rfl
      simp [rstripWs, hcw]
    | cons c2 cs2 =>
      have hcs : rstripWs (c2 :: cs2) = c2 :: cs2 :=
        ih fun x hx => h x (by rw [List.getLast?_cons_cons]; exact hx)
      have hunf : rstripWs (c :: c2 :: cs2)
          = if rstripWs (c2 :: cs2) = [] && isWs c then [] else c :: rstripWs (c2 :: cs2) := rfl
      rw [hunf, hcs]
      simp

theorem pyStrip_id (l : Str) (hh : headIsWs l = false) (hl : lastIsWs l = false) :
    pyStrip l = l := by
  unfold pyStrip
  rw [show l.dropWhile (fun c => isWs c) = l by
    cases l with
    | nil => rfl
    | cons c cs =>
      rw [List.dropWhile_cons]
      simp [headIsWs_false (c :: cs) hh c rfl]]
  exact rstripWs_id l (lastIsWs_false l hl)

theorem isSubstr_nil_left (s : Str) : isSubstr [] s = true := by
  cases s <;> simp [isSubstr, leadsWith]

theorem isSubstr_parts (w x y : Str) : isSubstr w (x ++ w ++ y) = true := by
  induction x with
  | nil =>
    simp only [List.nil_append]
    cases w with
    | nil => exact isSubstr_nil_left y
    | cons c cs =>
      rw [show (c :: cs) ++ y = c :: (cs ++ y) from rfl]
      unfold isSubstr
      have hl : leadsWith (c :: cs) (c :: (cs ++ y)) = true :=
        (leadsWith_iff _ _).mpr ⟨y, rfl⟩
      rw [hl]
      simp
  | cons a as ih =>
    rw [show (a :: as) ++ w ++ y = a :: (as ++ w ++ y) by simp]
    unfold isSubstr
    rw [ih]
    simp

theorem reSplitGo_through (u : Str) :
    ∀ (v acc : Str) (fuel : Nat),
    (∀ u1 u2, u = u1 ++ u2 → u2 ≠ [] → splitMatch (u2 ++ v) = none) →
    reSplitGo (fuel + u.length) (u ++ v) acc = reSplitGo fuel v (u.reverse ++ acc) := by
  induction u with
  | nil => intro v acc fuel _; simp
  | cons c cs ih =>
    intro v acc fuel hno
    have hm : splitMatch (c :: (cs ++ v)) = none := by
      have hm0 := hno [] (c :: cs) rfl (by simp)
      simpa using hm0
    rw [show fuel + (c :: cs).length = (fuel + cs.length) + 1 by
      simp [List.length_cons]; omega]
    rw [show (c :: cs) ++ v = c :: (cs ++ v) from rfl]
    rw [show reSplitGo ((fuel + cs.length) + 1) (c :: (cs ++ v)) acc
        = reSplitGo (fuel + cs.length) (cs ++ v) (c :: acc) by
      simp [reSplitGo, hm]]
    rw [ih v (c :: acc) fuel fun u1 u2 hu h2 => hno (c :: u1) u2 (by rw [hu]; rfl) h2]
    simp

theorem splitMatch_conn_cons (d : Char) (q : Str) (hd : isWs d = false)
    (hdc : d ∈ connChars) (hdrop : q.dropWhile (fun c => isWs c) = q) :
    splitMatch (d :: q) = some q := by
  unfold splitMatch
  rw [show List.dropWhile (fun c => isWs c) (d :: q) = d :: q from by
    rw [List.dropWhile_cons]
    simp [hd]]
  show (if d ∈ connChars then some (q.dropWhile (fun c => isWs c))
      else if leadsWith (str " and ") (d :: q) then some ((d :: q).drop 5) else none) = some q
  rw [if_pos hdc, hdrop]

theorem splitMatch_junction (c : Str) (hc : c ∈ connectors) (q : Str)
    (hq : headIsWs q = false) :
    splitMatch (c ++ q) = some q := by
  have hdrop : q.dropWhile (fun c => isWs c) = q := by
    cases q with
    | nil => rfl
    | cons x xs =>
      rw [List.dropWhile_cons]
      simp [headIsWs_false (x :: xs) hq x rfl]
  simp only [connectors, List.mem_cons] at hc
  rcases hc with rfl | rfl | rfl | rfl | rfl | rfl | rfl | hc
  · exact splitMatch_conn_cons '|' q (by decide) (by decide) hdrop
  · exact splitMatch_conn_cons ',' q (by decide) (by decide) hdrop
  · exact splitMatch_conn_cons ';' q (by decide) (by decide) hdrop
  · exact splitMatch_conn_cons '&' q (by decide) (by decide) hdrop
  · exact splitMatch_conn_cons '+' q (by decide) (by decide) hdrop
  · exact splitMatch_conn_cons '/' q (by decide) (by decide) hdrop
  · show splitMatch (' ' :: 'a' :: 'n' :: 'd' :: ' ' :: q) = some q
    unfold splitMatch
    rw [show List.dropWhile (fun c => isWs c) (' ' :: 'a' :: 'n' :: 'd' :: ' ' :: q)
        = 'a' :: 'n' :: 'd' :: ' ' :: q from by
      rw [List.dropWhile_cons]
      simp only [show isWs ' ' = true from rfl, if_true]
      rw [List.dropWhile_cons]
      simp [show isWs 'a' = false from rfl]]
    show (if 'a' ∈ connChars then some (('n' :: 'd' :: ' ' :: q).dropWhile (fun c => isWs c))
        else if leadsWith (str " and ") (' ' :: 'a' :: 'n' :: 'd' :: ' ' :: q) then
          some ((' ' :: 'a' :: 'n' :: 'd' :: ' ' :: q).drop 5)
        else none) = some q
    rw [if_neg (by decide : ¬ 'a' ∈ connChars)]
    rw [show leadsWith (str " and ") (' ' :: 'a' :: 'n' :: 'd' :: ' ' :: q) = true from
      (leadsWith_iff _ _).mpr ⟨q, rfl⟩]
    rfl
  · exact absurd hc (List.not_mem_nil _)

theorem splitMatch_none_inside (p : Str) (hpp : plainPhrase p)
    (u1 u2 : Str) (hu : p = u1 ++ u2) (hne : u2 ≠ [])
    (v : Str) (hv : v = [] ∨ ∃ d vs, v = d :: vs ∧ d ∈ connFirsts) :
    splitMatch (u2 ++ v) = none := by
  obtain ⟨hp0, hpc, hpa, hph, hpl⟩ := hpp
  have hlast : u2.getLast? = p.getLast? := by
    rw [hu]
    exact (List.getLast?_append_of_ne_nil u1 hne).symm
  obtain ⟨lst, hlst⟩ : ∃ l, u2.getLast? = some l := by
    cases hx : u2.getLast? with
    | none => exact absurd (List.getLast?_eq_none_iff.mp hx) hne
    | some l => exact ⟨l, rfl⟩
  have hlstws : isWs lst = false := lastIsWs_false p hpl lst (hlast ▸ hlst)
  have hd2 : u2.dropWhile (fun c => isWs c) ≠ [] := by
    intro hx
    have hall := List.dropWhile_eq_nil_iff.mp hx
    have hws := hall lst (List.mem_of_getLast?_eq_some hlst)
    rw [hws] at hlstws
    cases hlstws
  have hsplit : (u2 ++ v).dropWhile (fun c => isWs c)
      = u2.dropWhile (fun c => isWs c) ++ v := by
    rw [List.dropWhile_append]
    simp [List.isEmpty_iff, hd2]
  obtain ⟨x, rest, hxr⟩ : ∃ x rest, u2.dropWhile (fun c => isWs c) = x :: rest := by
    cases hx : u2.dropWhile (fun c => isWs c) with
    | nil => exact absurd hx hd2
    | cons x rest => exact ⟨x, rest, rfl⟩
  have hxmem : x ∈ p := by
    have hx2 : x ∈ u2 :=
      (List.dropWhile_sublist (fun c => isWs c)).subset (hxr ▸ List.mem_cons_self x rest)
    rw [hu]
    exact List.mem_append_right u1 hx2
  have hxc : x ∉ connChars := hpc x hxmem
  have hlw : leadsWith (str " and ") (u2 ++ v) = false := by
    by_contra hlw2
    have hlw3 : leadsWith (str " and ") (u2 ++ v) = true := by
      cases hx2 : leadsWith (str " and ") (u2 ++ v)
      · exact absurd hx2 hlw2
      · rfl
    obtain ⟨b2, hb2⟩ := (leadsWith_iff _ _).mp hlw3
    rw [show str " and " = [' ', 'a', 'n', 'd', ' '] from rfl] at hb2
    cases u2 with
    | nil => exact hne rfl
    | cons c1 u3 =>
      simp only [List.cons_append, List.cons.injEq] at hb2
      obtain ⟨rfl, hb3⟩ := hb2
      cases u3 with
      | nil =>
        have hlsp : lst = ' ' := by
          simp only [List.getLast?_singleton, Option.some.injEq] at hlst
          exact hlst.symm
        rw [hlsp] at hlstws
        cases hlstws
      | cons c2 u4 =>
        simp only [List.cons_append, List.cons.injEq] at hb3
        obtain ⟨rfl, hb4⟩ := hb3
        cases u4 with
        | nil =>
          rcases hv with rfl | ⟨d, vs, rfl, hdf⟩
          · simp at hb4
          · simp only [List.nil_append, List.cons.injEq] at hb4
            obtain ⟨rfl, _⟩ := hb4
            exact absurd hdf (by decide)
        | cons c3 u5 =>
          simp only [List.cons_append, List.cons.injEq] at hb4
          obtain ⟨rfl, hb5⟩ := hb4
          cases u5 with
          | nil =>
            rcases hv with rfl | ⟨d, vs, rfl, hdf⟩
            · simp at hb5
            · simp only [List.nil_append, List.cons.injEq] at hb5
              obtain ⟨rfl, _⟩ := hb5
              exact absurd hdf (by decide)
          | cons c4 u6 =>
            simp only [List.cons_append, List.cons.injEq] at hb5
            obtain ⟨rfl, _⟩ := hb5
            have hsub : isSubstr (str "and") p = true := by
              rw [hu, show u1 ++ (' ' :: 'a' :: 'n' :: 'd' :: u6)
                  = (u1 ++ [' ']) ++ str "and" ++ u6 by simp [str]]
              exact isSubstr_parts _ _ _
            rw [hsub] at hpa
            cases hpa
  unfold splitMatch
  rw [hsplit, hxr]
  show (if x ∈ connChars then some ((rest ++ v).dropWhile (fun c => isWs c))
      else if leadsWith (str " and ") (u2 ++ v) then some ((u2 ++ v).drop 5) else none) = none
  rw [if_neg hxc, hlw]
  rfl

theorem reSplitGo_nil (fuel : Nat) (acc : Str) : reSplitGo fuel [] acc = [acc.reverse] := by
  cases fuel <;> rfl

/-- C5 counterexample: the claim fails for arbitrary phrases.  Joining the
    phrases x-and and y with a comma splits differently from joining them
    with the word-and connector, because the phrase's own trailing and
    captures the leftmost word-and match. -/
theorem C5_split_counterexample :
    str "," ∈ connectors ∧ str " and " ∈ connectors ∧
    split_specialties (str "x and" ++ str "," ++ str "y")
      ≠ split_specialties (str "x and" ++ str " and " ++ str "y") := by decide

/-- C5 amended: for plain phrases (nonempty, free of connector characters
    and of the letter sequence a n d, with no whitespace at either end)
    the split of the joined string is the two phrases themselves,
    whichever configured connector joins them; in particular the split is
    insensitive to the choice of connector for such phrases. -/
theorem C5_split_amended (p q c : Str) (hp : plainPhrase p) (hq : plainPhrase q)
    (hc : c ∈ connectors) :
    split_specialties (p ++ c ++ q) = [p, q] := by
  have hcons : ∃ d cs', c = d :: cs' ∧ d ∈ connFirsts := by
    have hc2 := hc
    simp only [connectors, List.mem_cons] at hc2
    rcases hc2 with h1 | h1 | h1 | h1 | h1 | h1 | h1 | h1
    · exact ⟨'|', [], h1, by decide⟩
    · exact ⟨',', [], h1, by decide⟩
    · exact ⟨';', [], h1, by decide⟩
    · exact ⟨'&', [], h1, by decide⟩
    · exact ⟨'+', [], h1, by decide⟩
    · exact ⟨'/', [], h1, by decide⟩
    · exact ⟨' ', ['a', 'n', 'd', ' '], h1, by decide⟩
    · exact absurd h1 (List.not_mem_nil _)
  obtain ⟨d, cs', hdc, hdf⟩ := hcons
  unfold split_specialties
  rw [show (p ++ c ++ q).length = (c ++ q).length + p.length by
    simp [List.length_append]; omega]
  rw [List.append_assoc]
  rw [reSplitGo_through p (c ++ q) [] ((c ++ q).length) ?hnomp]
  case hnomp =>
    intro u1 u2 hu h2
    apply splitMatch_none_inside p hp u1 u2 hu h2
    right
    exact ⟨d, cs' ++ q, by rw [hdc]; simp, hdf⟩
  have hjun : splitMatch (c ++ q) = some q := splitMatch_junction c hc q hq.2.2.2.1
  rw [hdc]
  rw [show ((d :: cs') ++ q).length = ((cs' ++ q).length) + 1 by simp]
  have hj2 : splitMatch (d :: (cs' ++ q)) = some q := by
    rw [hdc] at hjun
    exact hjun
  rw [show (d :: cs') ++ q = d :: (cs' ++ q) from rfl]
  rw [show reSplitGo ((cs' ++ q).length + 1) (d :: (cs' ++ q)) (p.reverse ++ [])
      = (p.reverse ++ []).reverse :: reSplitGo ((cs' ++ q).length) q [] from by
    simp [reSplitGo, hj2]]
  rw [show (cs' ++ q).length = cs'.length + q.length by simp]
  have hfin : reSplitGo (cs'.length + q.length) q [] = [q] := by
    have h2 := reSplitGo_through q [] [] cs'.length ?hnomq
    case hnomq =>
      intro u1 u2 hu h2x
      exact splitMatch_none_inside q hq u1 u2 hu h2x [] (Or.inl rfl)
    rw [List.append_nil] at h2
    rw [h2, reSplitGo_nil]
    simp
  rw [hfin]
  simp only [List.append_nil, List.reverse_reverse]
  rw [show ([p, q].map pyStrip) = [p, q] from by
    simp [pyStrip_id p hp.2.2.2.1 hp.2.2.2.2, pyStrip_id q hq.2.2.2.1 hq.2.2.2.2]]
  simp [hp.1, hq.1]

theorem C5_split_amended_witness :
    split_specialties (str "Cardio" ++ str "," ++ str "Neuro")
      = [str "Cardio", str "Neuro"] ∧
    split_specialties (str "Cardio" ++ str "/" ++ str "Neuro")
      = [str "Cardio", str "Neuro"] ∧
    split_specialties (str "Cardio" ++ str " and " ++ str "Neuro")
      = [str "Cardio", str "Neuro"] := by
  have hpp : plainPhrase (str "Cardio") :=
    ⟨by decide, by decide, by decide, by decide, by decide⟩
  have hpq : plainPhrase (str "Neuro") :=
    ⟨by decide, by decide, by decide, by decide, by decide⟩
  refine ⟨?_, ?_, ?_⟩
  · exact C5_split_amended (str "Cardio") (str "Neuro") (str ",") hpp hpq (by decide)
  · exact C5_split_amended (str "Cardio") (str "Neuro") (str "/") hpp hpq (by decide)
  · exact C5_split_amended (str "Cardio") (str "Neuro") (str " and ") hpp hpq (by decide)

/-! Toolkit for the idempotence of normalize (claim C3).  Equation lemmas
    for the fueled and accumulator functions, character-class facts, and
    preservation lemmas for each stage of the pipeline. -/

theorem runsGo_nil (acc : Str) : runsGo [] acc = if acc = [] then [] else [acc.reverse] := rfl

theorem runsGo_word (c : Char) (cs acc : Str) (h : isWordChar c = true) :
    runsGo (c :: cs) acc = runsGo cs (c :: acc) := by
  simp [runsGo, h]

theorem runsGo_nword_nil (c : Char) (cs : Str) (h : isWordChar c = false) :
    runsGo (c :: cs) [] = runsGo cs [] := by
  simp [runsGo, h]

theorem runsGo_nword_acc (c : Char) (cs acc : Str) (h : isWordChar c = false)
    (ha : acc ≠ []) :
    runsGo (c :: cs) acc = acc.reverse :: runsGo cs [] := by
  simp [runsGo, h, ha]

theorem rmWordsGo_nil (W : List Str) (w : Str) : rmWordsGo W [] w = flushW W w := rfl

theorem rmWordsGo_word (W : List Str) (c : Char) (cs w : Str) (h : isWordChar c = true) :
    rmWordsGo W (c :: cs) w = rmWordsGo W cs (c :: w) := by
  simp [rmWordsGo, h]

theorem rmWordsGo_nword (W : List Str) (c : Char) (cs w : Str) (h : isWordChar c = false) :
    rmWordsGo W (c :: cs) w = flushW W w ++ c :: rmWordsGo W cs [] := by
  simp [rmWordsGo, h]

theorem collapseGo_ws_t (c : Char) (cs : Str) (h : isWs c = true) :
    collapseGo true (c :: cs) = collapseGo true cs := by
  simp [collapseGo, h]

theorem collapseGo_ws_f (c : Char) (cs : Str) (h : isWs c = true) :
    collapseGo false (c :: cs) = ' ' :: collapseGo true cs := by
  simp [collapseGo, h]

theorem collapseGo_nws (b : Bool) (c : Char) (cs : Str) (h : isWs c = false) :
    collapseGo b (c :: cs) = c :: collapseGo false cs := by
  simp [collapseGo, h]

theorem rstripWs_cons (c : Char) (cs : Str) :
    rstripWs (c :: cs) = if rstripWs cs = [] && isWs c then [] else c :: rstripWs cs := rfl

theorem dropWhile_cons_ws (c : Char) (cs : Str) :
    (c :: cs).dropWhile (fun x => isWs x) =
      if isWs c = true then cs.dropWhile (fun x => isWs x) else c :: cs := by
  cases h : isWs c <;> simp [List.dropWhile, h]

theorem ws_not_word (c : Char) (h : isWs c = true) : isWordChar c = false := by
  have h1 : c = ' ' ∨ c = '\t' ∨ c = '\n' ∨ c = '\x0d' ∨ c = '\x0b' ∨ c = '\x0c' := by
    simpa [isWs, Bool.or_eq_true, decide_eq_true_eq, or_assoc] using h
  rcases h1 with rfl | rfl | rfl | rfl | rfl | rfl <;> decide

theorem keep_not_upper (c : Char) (h : keepChar c = true) : isUpperAlpha c = false := by
  cases hu : isUpperAlpha c with
  | false => rfl
  | true =>
    exfalso
    have hA : 'A' ≤ c := of_decide_eq_true ((Bool.and_eq_true _ _).mp hu).1
    have hZ : c ≤ 'Z' := of_decide_eq_true ((Bool.and_eq_true _ _).mp hu).2
    have h' : isLowerAlpha c = true ∨ isDigitCh c = true ∨ isWs c = true ∨ c ∈ keepSpecials := by
      simpa [keepChar, Bool.or_eq_true, decide_eq_true_eq, or_assoc] using h
    rcases h' with hx | hx | hx | hx
    · have h1 : 'a' ≤ c := of_decide_eq_true ((Bool.and_eq_true _ _).mp hx).1
      exact absurd (le_trans h1 hZ) (by decide)
    · have h1 : c ≤ '9' := of_decide_eq_true ((Bool.and_eq_true _ _).mp hx).2
      exact absurd (le_trans hA h1) (by decide)
    · have h1 : c = ' ' ∨ c = '\t' ∨ c = '\n' ∨ c = '\x0d' ∨ c = '\x0b' ∨ c = '\x0c' := by
        simpa [isWs, Bool.or_eq_true, decide_eq_true_eq, or_assoc] using hx
      rcases h1 with rfl | rfl | rfl | rfl | rfl | rfl <;> exact absurd hA (by decide)
    · have h1 : c = '/' ∨ c = '&' ∨ c = '+' ∨ c = ',' ∨ c = '-' := by
        simpa [keepSpecials] using hx
      rcases h1 with rfl | rfl | rfl | rfl | rfl <;> exact absurd hA (by decide)

theorem lc_keep_id (c : Char) (h : keepChar c = true) : lc c = c := by
  simp [lc, keep_not_upper c h]

theorem filt_keep_id (c : Char) (h : keepChar c = true) : filtChar c = c := by
  simp [filtChar, h]

theorem map_id_of_fix (f : Char → Char) :
    ∀ l : Str, (∀ c ∈ l, f c = c) → l.map f = l := by
  intro l
  induction l with
  | nil => intro _; rfl
  | cons c cs ih =>
    intro h
    rw [List.map_cons, h c (List.mem_cons_self _ _),
      ih (fun x hx => h x (List.mem_cons_of_mem c hx))]

theorem mem_map_filt (l : Str) : ∀ c ∈ l.map filtChar, keepChar c = true := by
  intro c hc
  obtain ⟨x, _, rfl⟩ := List.mem_map.mp hc
  unfold filtChar
  by_cases hk : keepChar x = true
  · rw [if_pos hk]; exact hk
  · rw [if_neg hk]; decide

theorem flushW_chars (W : List Str) (w : Str) :
    ∀ c ∈ flushW W w, c = ' ' ∨ c ∈ w := by
  intro c hc
  unfold flushW at hc
  by_cases hw : w = []
  · rw [if_pos hw] at hc
    exact absurd hc (List.not_mem_nil c)
  · rw [if_neg hw] at hc
    by_cases hm : w.reverse ∈ W
    · rw [if_pos hm] at hc
      simp at hc
      exact Or.inl hc
    · rw [if_neg hm] at hc
      exact Or.inr (List.mem_reverse.mp hc)

theorem rmWordsGo_chars (W : List Str) (P : Char → Prop) (hsp : P ' ') :
    ∀ (l w : Str), (∀ c ∈ l, P c) → (∀ c ∈ w, P c) →
      ∀ c ∈ rmWordsGo W l w, P c := by
  intro l
  induction l with
  | nil =>
    intro w _ hw c hc
    rcases flushW_chars W w c hc with rfl | h
    · exact hsp
    · exact hw c h
  | cons d ds ih =>
    intro w hl hw c hc
    cases hword : isWordChar d with
    | true =>
      rw [rmWordsGo_word W d ds w hword] at hc
      refine ih (d :: w) (fun x hx => hl x (List.mem_cons_of_mem d hx)) ?_ c hc
      intro x hx
      rcases List.mem_cons.mp hx with rfl | hx2
      · exact hl x (List.mem_cons_self _ _)
      · exact hw x hx2
    | false =>
      rw [rmWordsGo_nword W d ds w hword] at hc
      rcases List.mem_append.mp hc with h1 | h1
      · rcases flushW_chars W w c h1 with rfl | h2
        · exact hsp
        · exact hw c h2
      · rcases List.mem_cons.mp h1 with rfl | h2
        · exact hl c (List.mem_cons_self _ _)
        · exact ih [] (fun x hx => hl x (List.mem_cons_of_mem d hx))
            (fun x hx => absurd hx (List.not_mem_nil x)) c h2

theorem collapseGo_chars (P : Char → Prop) (hsp : P ' ') :
    ∀ (l : Str) (b : Bool), (∀ c ∈ l, P c) → ∀ c ∈ collapseGo b l, P c := by
  intro l
  induction l with
  | nil => intro b _ c hc; simp [collapseGo] at hc
  | cons d ds ih =>
    intro b hl c hc
    cases hd : isWs d with
    | true =>
      cases b with
      | true =>
        rw [collapseGo_ws_t d ds hd] at hc
        exact ih true (fun x hx => hl x (List.mem_cons_of_mem d hx)) c hc
      | false =>
        rw [collapseGo_ws_f d ds hd] at hc
        rcases List.mem_cons.mp hc with rfl | h2
        · exact hsp
        · exact ih true (fun x hx => hl x (List.mem_cons_of_mem d hx)) c h2
    | false =>
      rw [collapseGo_nws b d ds hd] at hc
      rcases List.mem_cons.mp hc with rfl | h2
      · exact hl c (List.mem_cons_self _ _)
      · exact ih false (fun x hx => hl x (List.mem_cons_of_mem d hx)) c h2

theorem rstripWs_subset (l : Str) : rstripWs l ⊆ l := by
  induction l with
  | nil => simp [rstripWs]
  | cons c cs ih =>
    rw [rstripWs_cons]
    by_cases h1 : rstripWs cs = []
    · cases h2 : isWs c with
      | true =>
        rw [if_pos (by simp [h1, h2])]
        intro x hx
        exact absurd hx (List.not_mem_nil x)
      | false =>
        rw [if_neg (by simp [h2])]
        intro x hx
        rcases List.mem_cons.mp hx with rfl | hx2
        · exact List.mem_cons_self _ _
        · exact List.mem_cons_of_mem c (ih hx2)
    · rw [if_neg (by simp [h1])]
      intro x hx
      rcases List.mem_cons.mp hx with rfl | hx2
      · exact List.mem_cons_self _ _
      · exact List.mem_cons_of_mem c (ih hx2)

theorem dropWhile_subset_ws (l : Str) : l.dropWhile (fun x => isWs x) ⊆ l := by
  induction l with
  | nil => simp
  | cons c cs ih =>
    rw [dropWhile_cons_ws]
    cases h : isWs c with
    | true =>
      rw [if_pos rfl]
      exact fun x hx => List.mem_cons_of_mem c (ih hx)
    | false =>
      rw [if_neg (by simp)]
      exact fun x hx => hx

theorem noTwoWs_cons (c : Char) (l : Str) :
    noTwoWs (c :: l) = true ↔
      ((isWs c = true → headIsWs l = false) ∧ noTwoWs l = true) := by
  cases l with
  | nil => simp [noTwoWs, headIsWs]
  | cons d rest =>
    show (!(isWs c && isWs d) && noTwoWs (d :: rest)) = true ↔ _
    by_cases h1 : isWs c = true <;> by_cases h2 : isWs d = true <;>
      simp [headIsWs, h1, h2]

theorem collapseGo_space :
    ∀ (l : Str) (b : Bool) (c : Char), c ∈ collapseGo b l → isWs c = true → c = ' ' := by
  intro l
  induction l with
  | nil => intro b c hc _; simp [collapseGo] at hc
  | cons d ds ih =>
    intro b c hc hws
    cases hd : isWs d with
    | true =>
      cases b with
      | true =>
        rw [collapseGo_ws_t d ds hd] at hc
        exact ih true c hc hws
      | false =>
        rw [collapseGo_ws_f d ds hd] at hc
        rcases List.mem_cons.mp hc with rfl | h2
        · rfl
        · exact ih true c h2 hws
    | false =>
      rw [collapseGo_nws b d ds hd] at hc
      rcases List.mem_cons.mp hc with rfl | h2
      · rw [hws] at hd
        exact Bool.noConfusion hd
      · exact ih false c h2 hws

theorem collapseGo_noTwo :
    ∀ (l : Str) (b : Bool),
      noTwoWs (collapseGo b l) = true ∧ (b = true → headIsWs (collapseGo b l) = false) := by
  intro l
  induction l with
  | nil => intro b; exact ⟨rfl, fun _ => rfl⟩
  | cons c cs ih =>
    intro b
    cases hc : isWs c with
    | true =>
      cases b with
      | true =>
        rw [collapseGo_ws_t c cs hc]
        exact ⟨(ih true).1, fun _ => (ih true).2 rfl⟩
      | false =>
        rw [collapseGo_ws_f c cs hc]
        constructor
        · rw [noTwoWs_cons]
          exact ⟨fun _ => (ih true).2 rfl, (ih true).1⟩
        · intro hb
          exact Bool.noConfusion hb
    | false =>
      rw [collapseGo_nws b c cs hc]
      constructor
      · rw [noTwoWs_cons]
        refine ⟨fun hcw => ?_, (ih false).1⟩
        rw [hcw] at hc
        exact Bool.noConfusion hc
      · intro _
        simp [headIsWs, hc]

theorem dropWhile_headIsWs (l : Str) :
    headIsWs (l.dropWhile (fun x => isWs x)) = false := by
  induction l with
  | nil => rfl
  | cons c cs ih =>
    rw [dropWhile_cons_ws]
    cases h : isWs c with
    | true =>
      rw [if_pos rfl]
      exact ih
    | false =>
      rw [if_neg (by simp)]
      simp [headIsWs, h]

theorem dropWhile_noTwo :
    ∀ l : Str, noTwoWs l = true → noTwoWs (l.dropWhile (fun x => isWs x)) = true := by
  intro l
  induction l with
  | nil => intro h; exact h
  | cons c cs ih =>
    intro h
    rw [dropWhile_cons_ws]
    cases hx : isWs c with
    | true =>
      rw [if_pos rfl]
      exact ih ((noTwoWs_cons c cs).mp h).2
    | false =>
      rw [if_neg (by simp)]
      exact h

theorem rstripWs_head (l : Str) (h : rstripWs l ≠ []) : (rstripWs l).head? = l.head? := by
  cases l with
  | nil => rfl
  | cons c cs =>
    rw [rstripWs_cons] at h ⊢
    by_cases h1 : rstripWs cs = []
    · cases h2 : isWs c with
      | true =>
        rw [if_pos (by simp [h1, h2])] at h
        exact absurd rfl h
      | false =>
        rw [if_neg (by simp [h2])]
        rfl
    · rw [if_neg (by simp [h1])]
      rfl

theorem rstripWs_headIsWs (l : Str) (h : headIsWs l = false) :
    headIsWs (rstripWs l) = false := by
  by_cases hn : rstripWs l = []
  · rw [hn]
    rfl
  · unfold headIsWs at h ⊢
    rw [rstripWs_head l hn]
    exact h

theorem rstripWs_lastIsWs (l : Str) : lastIsWs (rstripWs l) = false := by
  induction l with
  | nil => rfl
  | cons c cs ih =>
    rw [rstripWs_cons]
    by_cases h1 : rstripWs cs = []
    · cases h2 : isWs c with
      | true =>
        rw [if_pos (by simp [h1, h2])]
        rfl
      | false =>
        rw [if_neg (by simp [h2]), h1]
        simp [lastIsWs, h2]
    · rw [if_neg (by simp [h1])]
      obtain ⟨x, xs, hxe⟩ := List.exists_cons_of_ne_nil h1
      rw [hxe] at ih ⊢
      unfold lastIsWs at ih ⊢
      rw [List.getLast?_cons_cons]
      exact ih

theorem rstripWs_noTwo :
    ∀ l : Str, noTwoWs l = true → noTwoWs (rstripWs l) = true := by
  intro l
  induction l with
  | nil => intro h; exact h
  | cons c cs ih =>
    intro h
    have h2 := (noTwoWs_cons c cs).mp h
    rw [rstripWs_cons]
    by_cases h1 : rstripWs cs = []
    · cases hws : isWs c with
      | true =>
        rw [if_pos (by simp [h1, hws])]
        rfl
      | false =>
        rw [if_neg (by simp [hws]), h1]
        rfl
    · rw [if_neg (by simp [h1])]
      rw [noTwoWs_cons]
      exact ⟨fun hcw => rstripWs_headIsWs cs (h2.1 hcw), ih h2.2⟩

theorem collapseGo_swap (l : Str) (h : headIsWs l = false) :
    collapseGo true l = collapseGo false l := by
  cases l with
  | nil => rfl
  | cons c cs =>
    have hc : isWs c = false := by
      unfold headIsWs at h
      simpa using h
    rw [collapseGo_nws true c cs hc, collapseGo_nws false c cs hc]

theorem collapse_id :
    ∀ l : Str, noTwoWs l = true → (∀ c ∈ l, isWs c = true → c = ' ') →
      collapseGo false l = l := by
  intro l
  induction l with
  | nil => intro _ _; rfl
  | cons c cs ih =>
    intro hnt hsp
    have h2 := (noTwoWs_cons c cs).mp hnt
    cases hc : isWs c with
    | true =>
      have hcsp : c = ' ' := hsp c (List.mem_cons_self _ _) hc
      rw [collapseGo_ws_f c cs hc, collapseGo_swap cs (h2.1 hc),
        ih h2.2 (fun x hx => hsp x (List.mem_cons_of_mem c hx)), hcsp]
    | false =>
      rw [collapseGo_nws false c cs hc,
        ih h2.2 (fun x hx => hsp x (List.mem_cons_of_mem c hx))]

theorem allWs_runsGo :
    ∀ l : Str, (∀ c ∈ l, isWs c = true) →
      ∀ acc : Str, runsGo l acc = if acc = [] then [] else [acc.reverse] := by
  intro l
  induction l with
  | nil => intro _ acc; rfl
  | cons c cs ih =>
    intro h acc
    have hnw : isWordChar c = false := ws_not_word c (h c (List.mem_cons_self _ _))
    have hcs : ∀ x ∈ cs, isWs x = true := fun x hx => h x (List.mem_cons_of_mem c hx)
    by_cases ha : acc = []
    · subst ha
      rw [runsGo_nword_nil c cs hnw, ih hcs []]
    · rw [runsGo_nword_acc c cs acc hnw ha, ih hcs [], if_pos rfl, if_neg ha]

theorem rstripWs_nil_iff (l : Str) : rstripWs l = [] ↔ ∀ c ∈ l, isWs c = true := by
  induction l with
  | nil => simp [rstripWs]
  | cons c cs ih =>
    rw [rstripWs_cons]
    by_cases h1 : rstripWs cs = []
    · cases h2 : isWs c with
      | true =>
        rw [if_pos (by simp [h1, h2])]
        constructor
        · intro _ x hx
          rcases List.mem_cons.mp hx with rfl | hx2
          · exact h2
          · exact ih.mp h1 x hx2
        · intro _
          rfl
      | false =>
        rw [if_neg (by simp [h2])]
        constructor
        · intro hx
          exact absurd hx (List.cons_ne_nil c _)
        · intro hall
          exact absurd (hall c (List.mem_cons_self _ _)) (by simp [h2])
    · rw [if_neg (by simp [h1])]
      constructor
      · intro hx
        exact absurd hx (List.cons_ne_nil c _)
      · intro hall
        exact absurd (ih.mpr (fun x hx => hall x (List.mem_cons_of_mem c hx))) h1

theorem runsGo_rstrip :
    ∀ (l acc : Str), (∀ c ∈ acc, isWordChar c = true) →
      runsGo (rstripWs l) acc = runsGo l acc := by
  intro l
  induction l with
  | nil => intro acc _; rfl
  | cons c cs ih =>
    intro acc hacc
    rw [rstripWs_cons]
    by_cases h1 : rstripWs cs = []
    · have hallws : ∀ x ∈ cs, isWs x = true := (rstripWs_nil_iff cs).mp h1
      cases h2 : isWs c with
      | true =>
        rw [if_pos (by simp [h1, h2])]
        have hnw : isWordChar c = false := ws_not_word c h2
        by_cases ha : acc = []
        · subst ha
          rw [runsGo_nword_nil c cs hnw, allWs_runsGo cs hallws []]
          rfl
        · rw [runsGo_nword_acc c cs acc hnw ha, allWs_runsGo cs hallws [], if_pos rfl]
          rw [show runsGo [] acc = if acc = [] then [] else [acc.reverse] from rfl, if_neg ha]
      | false =>
        rw [if_neg (by simp [h2]), h1]
        cases hwc : isWordChar c with
        | true =>
          rw [runsGo_word c [] acc hwc, runsGo_word c cs acc hwc,
            allWs_runsGo cs hallws (c :: acc), if_neg (List.cons_ne_nil c acc)]
          rfl
        | false =>
          by_cases ha : acc = []
          · subst ha
            rw [runsGo_nword_nil c [] hwc, runsGo_nword_nil c cs hwc,
              allWs_runsGo cs hallws []]
            rfl
          · rw [runsGo_nword_acc c [] acc hwc ha, runsGo_nword_acc c cs acc hwc ha,
              allWs_runsGo cs hallws []]
            rfl
    · rw [if_neg (by simp [h1])]
      cases hwc : isWordChar c with
      | true =>
        rw [runsGo_word c (rstripWs cs) acc hwc, runsGo_word c cs acc hwc]
        refine ih (c :: acc) ?_
        intro x hx
        rcases List.mem_cons.mp hx with rfl | hx2
        · exact hwc
        · exact hacc x hx2
      | false =>
        by_cases ha : acc = []
        · subst ha
          rw [runsGo_nword_nil c (rstripWs cs) hwc, runsGo_nword_nil c cs hwc]
          exact ih [] (fun x hx => absurd hx (List.not_mem_nil x))
        · rw [runsGo_nword_acc c (rstripWs cs) acc hwc ha,
            runsGo_nword_acc c cs acc hwc ha,
            ih [] (fun x hx => absurd hx (List.not_mem_nil x))]

theorem runsGo_dropWhile (l : Str) :
    runsGo (l.dropWhile (fun x => isWs x)) [] = runsGo l [] := by
  induction l with
  | nil => rfl
  | cons c cs ih =>
    rw [dropWhile_cons_ws]
    cases h : isWs c with
    | true =>
      rw [if_pos rfl, ih, runsGo_nword_nil c cs (ws_not_word c h)]
    | false =>
      rw [if_neg (by simp)]

theorem runsGo_collapse :
    ∀ (l : Str) (b : Bool) (acc : Str), (b = true → acc = []) →
      (∀ c ∈ acc, isWordChar c = true) →
      runsGo (collapseGo b l) acc = runsGo l acc := by
  intro l
  induction l with
  | nil => intro b acc _ _; rfl
  | cons c cs ih =>
    intro b acc hba hacc
    have hnilw : ∀ x ∈ ([] : Str), isWordChar x = true :=
      fun x hx => absurd hx (List.not_mem_nil x)
    cases hw : isWs c with
    | true =>
      have hnw : isWordChar c = false := ws_not_word c hw
      cases b with
      | true =>
        rw [collapseGo_ws_t c cs hw, hba rfl, ih true [] (fun _ => rfl) hnilw,
          runsGo_nword_nil c cs hnw]
      | false =>
        rw [collapseGo_ws_f c cs hw]
        by_cases ha : acc = []
        · subst ha
          rw [runsGo_nword_nil ' ' (collapseGo true cs) (by decide),
            ih true [] (fun _ => rfl) hnilw, runsGo_nword_nil c cs hnw]
        · rw [runsGo_nword_acc ' ' (collapseGo true cs) acc (by decide) ha,
            ih true [] (fun _ => rfl) hnilw, runsGo_nword_acc c cs acc hnw ha]
    | false =>
      cases hwc : isWordChar c with
      | true =>
        rw [collapseGo_nws b c cs hw, runsGo_word c (collapseGo false cs) acc hwc,
          runsGo_word c cs acc hwc]
        refine ih false (c :: acc) (fun h => Bool.noConfusion h) ?_
        intro x hx
        rcases List.mem_cons.mp hx with rfl | hx2
        · exact hwc
        · exact hacc x hx2
      | false =>
        rw [collapseGo_nws b c cs hw]
        by_cases ha : acc = []
        · subst ha
          rw [runsGo_nword_nil c (collapseGo false cs) hwc, runsGo_nword_nil c cs hwc]
          exact ih false [] (fun h => Bool.noConfusion h) hnilw
        · rw [runsGo_nword_acc c (collapseGo false cs) acc hwc ha,
            runsGo_nword_acc c cs acc hwc ha,
            ih false [] (fun h => Bool.noConfusion h) hnilw]

theorem runsGo_rm (W : List Str) :
    ∀ (l w : Str), (∀ c ∈ w, isWordChar c = true) →
      runsGo (rmWordsGo W l w) [] =
        (runsGo l w).filter (fun r => decide (r ∉ W)) := by
  intro l
  induction l with
  | nil =>
    intro w hw
    rw [rmWordsGo_nil]
    by_cases hwn : w = []
    · subst hwn
      rfl
    · rw [runsGo_nil, if_neg hwn]
      unfold flushW
      rw [if_neg hwn]
      by_cases hmem : w.reverse ∈ W
      · rw [if_pos hmem, List.filter_cons, if_neg (by simp [hmem])]
        rfl
      · rw [if_neg hmem, List.filter_cons, if_pos (by simp [hmem])]
        have hacc := runsGo_wordAccum w.reverse
          (fun x hx => hw x (List.mem_reverse.mp hx)) [] []
        simp only [List.append_nil, List.reverse_reverse] at hacc
        rw [hacc, runsGo_nil, if_neg hwn]
        rfl
  | cons c cs ih =>
    intro w hw
    have hnilw : ∀ x ∈ ([] : Str), isWordChar x = true :=
      fun x hx => absurd hx (List.not_mem_nil x)
    cases hwc : isWordChar c with
    | true =>
      rw [rmWordsGo_word W c cs w hwc, runsGo_word c cs w hwc]
      refine ih (c :: w) ?_
      intro x hx
      rcases List.mem_cons.mp hx with rfl | hx2
      · exact hwc
      · exact hw x hx2
    | false =>
      rw [rmWordsGo_nword W c cs w hwc]
      by_cases hwn : w = []
      · subst hwn
        rw [show flushW W ([] : Str) = [] from rfl, List.nil_append,
          runsGo_nword_nil c (rmWordsGo W cs []) hwc, runsGo_nword_nil c cs hwc]
        exact ih [] hnilw
      · unfold flushW
        rw [if_neg hwn]
        by_cases hmem : w.reverse ∈ W
        · rw [if_pos hmem, List.singleton_append,
            runsGo_nword_nil ' ' (c :: rmWordsGo W cs []) (by decide),
            runsGo_nword_nil c (rmWordsGo W cs []) hwc,
            ih [] hnilw, runsGo_nword_acc c cs w hwc hwn,
            List.filter_cons, if_neg (by simp [hmem])]
        · rw [if_neg hmem,
            runsGo_wordAccum w.reverse (fun x hx => hw x (List.mem_reverse.mp hx))
              (c :: rmWordsGo W cs []) []]
          simp only [List.append_nil, List.reverse_reverse]
          rw [runsGo_nword_acc c (rmWordsGo W cs []) w hwc hwn,
            ih [] hnilw, runsGo_nword_acc c cs w hwc hwn,
            List.filter_cons, if_pos (by simp [hmem])]

theorem rmWordsGo_fix (W : List Str) :
    ∀ (l w : Str), (∀ c ∈ w, isWordChar c = true) →
      (∀ r ∈ runsGo l w, r ∉ W) →
      rmWordsGo W l w = w.reverse ++ l := by
  intro l
  induction l with
  | nil =>
    intro w _ hr
    rw [rmWordsGo_nil]
    unfold flushW
    by_cases hwn : w = []
    · rw [if_pos hwn, hwn]
      rfl
    · rw [if_neg hwn]
      have hmem : w.reverse ∉ W := by
        apply hr
        rw [runsGo_nil, if_neg hwn]
        exact List.mem_cons_self _ _
      rw [if_neg hmem]
      exact (List.append_nil _).symm
  | cons c cs ih =>
    intro w hw hr
    cases hwc : isWordChar c with
    | true =>
      rw [rmWordsGo_word W c cs w hwc]
      rw [ih (c :: w)
        (by
          intro x hx
          rcases List.mem_cons.mp hx with rfl | hx2
          · exact hwc
          · exact hw x hx2)
        (by
          intro r hrr
          apply hr
          rw [runsGo_word c cs w hwc]
          exact hrr)]
      rw [List.reverse_cons, List.append_assoc]
      rfl
    | false =>
      rw [rmWordsGo_nword W c cs w hwc]
      have htail : ∀ r ∈ runsGo cs [], r ∉ W := by
        intro r hrr
        apply hr
        by_cases hwn : w = []
        · subst hwn
          rw [runsGo_nword_nil c cs hwc]
          exact hrr
        · rw [runsGo_nword_acc c cs w hwc hwn]
          exact List.mem_cons_of_mem _ hrr
      rw [ih [] (fun x hx => absurd hx (List.not_mem_nil x)) htail]
      unfold flushW
      by_cases hwn : w = []
      · rw [if_pos hwn, hwn]
        rfl
      · rw [if_neg hwn]
        have hmem : w.reverse ∉ W := by
          apply hr
          rw [runsGo_nword_acc c cs w hwc hwn]
          exact List.mem_cons_self _ _
        rw [if_neg hmem]
        rfl

theorem normalize_chars (t : Str) : ∀ c ∈ normalize t, keepChar c = true := by
  have hx : ∀ c ∈ (t.map lc).map filtChar, keepChar c = true := mem_map_filt _
  have hnil : ∀ c ∈ ([] : Str), keepChar c = true :=
    fun x hx2 => absurd hx2 (List.not_mem_nil x)
  have h1 : ∀ c ∈ rmWordsGo deptWords ((t.map lc).map filtChar) [], keepChar c = true :=
    rmWordsGo_chars deptWords (fun c => keepChar c = true) (by decide) _ [] hx hnil
  have h2 : ∀ c ∈ rmWordsGo stopWords (rmWordsGo deptWords ((t.map lc).map filtChar) []) [],
      keepChar c = true :=
    rmWordsGo_chars stopWords (fun c => keepChar c = true) (by decide) _ [] h1 hnil
  have h3 : ∀ c ∈ collapseGo false
      (rmWordsGo stopWords (rmWordsGo deptWords ((t.map lc).map filtChar) []) []),
      keepChar c = true :=
    collapseGo_chars (fun c => keepChar c = true) (by decide) _ false h2
  intro c hc
  have hc' : c ∈ rstripWs ((collapseGo false
      (rmWordsGo stopWords (rmWordsGo deptWords ((t.map lc).map filtChar) []) [])).dropWhile
        (fun x => isWs x)) := hc
  exact h3 c (dropWhile_subset_ws _ (rstripWs_subset _ hc'))

theorem normalize_wsSpace (t : Str) : ∀ c ∈ normalize t, isWs c = true → c = ' ' := by
  intro c hc hws
  have hc' : c ∈ rstripWs ((collapseGo false
      (rmWordsGo stopWords (rmWordsGo deptWords ((t.map lc).map filtChar) []) [])).dropWhile
        (fun x => isWs x)) := hc
  exact collapseGo_space _ false c (dropWhile_subset_ws _ (rstripWs_subset _ hc')) hws

theorem normalize_noTwo (t : Str) : noTwoWs (normalize t) = true := by
  show noTwoWs (rstripWs ((collapseGo false
    (rmWordsGo stopWords (rmWordsGo deptWords ((t.map lc).map filtChar) []) [])).dropWhile
      (fun x => isWs x))) = true
  exact rstripWs_noTwo _ (dropWhile_noTwo _ (collapseGo_noTwo _ false).1)

theorem normalize_headIsWs (t : Str) : headIsWs (normalize t) = false := by
  show headIsWs (rstripWs ((collapseGo false
    (rmWordsGo stopWords (rmWordsGo deptWords ((t.map lc).map filtChar) []) [])).dropWhile
      (fun x => isWs x))) = false
  exact rstripWs_headIsWs _ (dropWhile_headIsWs _)

theorem normalize_lastIsWs (t : Str) : lastIsWs (normalize t) = false := by
  show lastIsWs (rstripWs ((collapseGo false
    (rmWordsGo stopWords (rmWordsGo deptWords ((t.map lc).map filtChar) []) [])).dropWhile
      (fun x => isWs x))) = false
  exact rstripWs_lastIsWs _

theorem normalize_runs (t : Str) :
    ∀ r ∈ runsGo (normalize t) [], r ∉ deptWords ∧ r ∉ stopWords := by
  have hnil : ∀ c ∈ ([] : Str), isWordChar c = true :=
    fun x hx => absurd hx (List.not_mem_nil x)
  have e : runsGo (normalize t) [] =
      ((runsGo ((t.map lc).map filtChar) []).filter
        (fun r => decide (r ∉ deptWords))).filter (fun r => decide (r ∉ stopWords)) := by
    calc runsGo (normalize t) []
        = runsGo ((collapseGo false (rmWordsGo stopWords
            (rmWordsGo deptWords ((t.map lc).map filtChar) []) [])).dropWhile
              (fun x => isWs x)) [] :=
          runsGo_rstrip _ [] hnil
      _ = runsGo (collapseGo false (rmWordsGo stopWords
            (rmWordsGo deptWords ((t.map lc).map filtChar) []) [])) [] :=
          runsGo_dropWhile _
      _ = runsGo (rmWordsGo stopWords
            (rmWordsGo deptWords ((t.map lc).map filtChar) []) []) [] :=
          runsGo_collapse _ false [] (fun h => Bool.noConfusion h) hnil
      _ = (runsGo (rmWordsGo deptWords ((t.map lc).map filtChar) []) []).filter
            (fun r => decide (r ∉ stopWords)) :=
          runsGo_rm stopWords _ [] hnil
      _ = ((runsGo ((t.map lc).map filtChar) []).filter
            (fun r => decide (r ∉ deptWords))).filter (fun r => decide (r ∉ stopWords)) := by
          rw [runsGo_rm deptWords _ [] hnil]
  intro r hr
  rw [e] at hr
  have h1 := List.mem_filter.mp hr
  have h2 := List.mem_filter.mp h1.1
  exact ⟨of_decide_eq_true h2.2, of_decide_eq_true h1.2⟩

/-- C3: mapping.py normalize is idempotent: for every input string,
    normalizing an already-normalized string returns it unchanged.  The
    output of normalize contains only kept characters (so lowercasing and
    the character filter are the identity on it), none of its maximal word
    runs is an organizational or stop word (so the two word-removal
    substitutions are the identity), and it has no doubled whitespace and
    no leading or trailing whitespace (so collapsing and stripping are the
    identity). -/
theorem C3_normalize_idempotent (t : Str) : normalize (normalize t) = normalize t := by
  have hchars := normalize_chars t
  have hlc : (normalize t).map lc = normalize t :=
    map_id_of_fix lc _ (fun c hc => lc_keep_id c (hchars c hc))
  have hfc : (normalize t).map filtChar = normalize t :=
    map_id_of_fix filtChar _ (fun c hc => filt_keep_id c (hchars c hc))
  have hruns := normalize_runs t
  have hnil : ∀ c ∈ ([] : Str), isWordChar c = true :=
    fun x hx => absurd hx (List.not_mem_nil x)
  have hdept : rmWords deptWords (normalize t) = normalize t := by
    show rmWordsGo deptWords (normalize t) [] = normalize t
    rw [rmWordsGo_fix deptWords _ [] hnil (fun r hr => (hruns r hr).1)]
    rfl
  have hstop : rmWords stopWords (normalize t) = normalize t := by
    show rmWordsGo stopWords (normalize t) [] = normalize t
    rw [rmWordsGo_fix stopWords _ [] hnil (fun r hr => (hruns r hr).2)]
    rfl
  have hcol : collapseWs (normalize t) = normalize t := by
    show collapseGo false (normalize t) = normalize t
    exact collapse_id _ (normalize_noTwo t) (normalize_wsSpace t)
  have hstrip : pyStrip (normalize t) = normalize t :=
    pyStrip_id _ (normalize_headIsWs t) (normalize_lastIsWs t)
  show pyStrip (collapseWs (rmWords stopWords
    (rmWords deptWords (((normalize t).map lc).map filtChar)))) = normalize t
  rw [hlc, hfc, hdept, hstop, hcol, hstrip]

end Py
